import Mathlib

/-!
Verification development for the ParaLink stateless smart-link redirector.

The definitions below are a shallow embedding of the repository's core:

* `src/utils/payload.ts` — the payload codec (`encodePayload`, `decodePayload`,
  `generateParaLink`) built on JavaScript's `JSON.stringify` / `JSON.parse`,
  `btoa` / `atob` and `decodeURIComponent`, all of which are modelled
  explicitly below;
* `src/utils/environment.ts` — the user-agent environment classifier
  (`detectEnvironment`, `isRealBrowser`);
* `src/utils/routing.ts` — the navigation strategy selection
  (`shouldShowBrowserTransition`, `generateAndroidIntent`,
  `openInSystemBrowser`), with DOM side effects reified as an `Effect` list;
* `src/pages/Viewer.tsx` — the payload shape validation of the viewer flow;
* the dashboard's `handleGenerate` — URL normalization and default title.

JavaScript strings reachable in this code are sequences of Unicode scalar
values, modelled as Lean `String` / `List Char`.  JSON numbers are kept as
their raw lexemes (no numeric field ever occurs in a link payload).
-/

/-- JSON values as produced by `JSON.parse`.  Object member lists keep every
member in source order; lookups take the last binding, matching JavaScript's
duplicate-key behaviour.  Numeric literals are kept as raw lexemes. -/
inductive Json where
  | null : Json
  | bool (b : Bool) : Json
  | num (lexeme : String) : Json
  | str (s : String) : Json
  | arr (elems : List Json) : Json
  | obj (members : List (String × Json)) : Json
deriving Repr

mutual

/-- Boolean structural equality on `Json`. -/
def jsonBeq : Json → Json → Bool
  | .null, .null => true
  | .bool a, .bool b => a == b
  | .num a, .num b => a == b
  | .str a, .str b => a == b
  | .arr xs, .arr ys => jsonBeqArr xs ys
  | .obj xs, .obj ys => jsonBeqObj xs ys
  | _, _ => false
  termination_by structural a => a

/-- Boolean structural equality on `Json` element lists. -/
def jsonBeqArr : List Json → List Json → Bool
  | [], [] => true
  | x :: xs, y :: ys => jsonBeq x y && jsonBeqArr xs ys
  | _, _ => false
  termination_by structural a => a

/-- Boolean structural equality on `Json` member lists. -/
def jsonBeqObj : List (String × Json) → List (String × Json) → Bool
  | [], [] => true
  | (k, v) :: xs, (l, w) :: ys => k == l && jsonBeq v w && jsonBeqObj xs ys
  | _, _ => false
  termination_by structural a => a

end

theorem jsonBeq_iff : ∀ a b : Json, jsonBeq a b = true ↔ a = b := by
  intro a b
  induction a, b using jsonBeq.induct
  case motive_2 xs ys => exact jsonBeqObj xs ys = true ↔ xs = ys
  case motive_3 xs ys => exact jsonBeqArr xs ys = true ↔ xs = ys
  all_goals
    first
      | (simp_all [jsonBeq, jsonBeqArr, jsonBeqObj]; done)
      | (rename_i a b h1 h2 h3 h4 h5 h6
         cases a <;> cases b <;>
           first
             | (simp_all [jsonBeq, jsonBeqArr, jsonBeqObj]; done)
             | exact absurd rfl (h5 _ _ rfl)
             | exact absurd rfl (h6 _ _ rfl))
      | (rename_i a b h1 h2
         cases a <;> cases b <;>
           first
             | (simp_all [jsonBeq, jsonBeqArr, jsonBeqObj]; done)
             | exact absurd rfl (h2 _ _ _ _ rfl)
             | exact absurd rfl (h2 _ _ _ _ _ _ rfl))

instance : DecidableEq Json := fun a b =>
  decidable_of_iff (jsonBeq a b = true) (jsonBeq_iff a b)

/-! ## Base64 (`btoa` / `atob`)

`btoa` throws on any character above U+00FF and otherwise base64-encodes the
string's code points as bytes; `atob` implements the forgiving-base64 decode
(ASCII whitespace is stripped, up to two trailing `=` of padding, unpadded
tails of length 2 or 3 accepted, leftover bits discarded). -/

/-- The base64 digit for a six-bit value. -/
def sixToChar (n : Nat) : Char :=
  if n < 26 then Char.ofNat (65 + n)
  else if n < 52 then Char.ofNat (97 + (n - 26))
  else if n < 62 then Char.ofNat (48 + (n - 52))
  else if n = 62 then '+'
  else '/'

/-- The six-bit value of a base64 digit, `none` for characters outside the
base64 alphabet. -/
def charToSix (c : Char) : Option Nat :=
  if 'A' ≤ c ∧ c ≤ 'Z' then some (c.toNat - 65)
  else if 'a' ≤ c ∧ c ≤ 'z' then some (c.toNat - 97 + 26)
  else if '0' ≤ c ∧ c ≤ '9' then some (c.toNat - 48 + 52)
  else if c = '+' then some 62
  else if c = '/' then some 63
  else none

/-- Base64-encode a byte list, three bytes to four digits, `=`-padded. -/
def b64EncodeBytes : List Nat → List Char
  | [] => []
  | [a] => [sixToChar (a / 4), sixToChar (a % 4 * 16), '=', '=']
  | [a, b] => [sixToChar (a / 4), sixToChar (a % 4 * 16 + b / 16),
               sixToChar (b % 16 * 4), '=']
  | a :: b :: c :: rest =>
      sixToChar (a / 4) :: sixToChar (a % 4 * 16 + b / 16) ::
      sixToChar (b % 16 * 4 + c / 64) :: sixToChar (c % 64) ::
      b64EncodeBytes rest

/-- ASCII whitespace stripped by forgiving-base64 decoding. -/
def isB64Ws (c : Char) : Bool :=
  c = ' ' ∨ c = '\t' ∨ c = '\n' ∨ c = '\x0c' ∨ c = '\r'

/-- Decode whitespace-free base64 digit groups to bytes.  Padding `=` is
accepted only as the tail of the final quad; a tail of length 1 and any
out-of-alphabet character fail. -/
def b64DecodeQuads : List Char → Option (List Nat)
  | [] => some []
  | [c1, c2] => do
      let v1 ← charToSix c1
      let v2 ← charToSix c2
      pure [v1 * 4 + v2 / 16]
  | [c1, c2, c3] => do
      let v1 ← charToSix c1
      let v2 ← charToSix c2
      let v3 ← charToSix c3
      pure [v1 * 4 + v2 / 16, v2 % 16 * 16 + v3 / 4]
  | [c1, c2, '=', '='] => do
      let v1 ← charToSix c1
      let v2 ← charToSix c2
      pure [v1 * 4 + v2 / 16]
  | [c1, c2, c3, '='] => do
      let v1 ← charToSix c1
      let v2 ← charToSix c2
      let v3 ← charToSix c3
      pure [v1 * 4 + v2 / 16, v2 % 16 * 16 + v3 / 4]
  | c1 :: c2 :: c3 :: c4 :: rest => do
      let v1 ← charToSix c1
      let v2 ← charToSix c2
      let v3 ← charToSix c3
      let v4 ← charToSix c4
      let tail ← b64DecodeQuads rest
      pure ((v1 * 4 + v2 / 16) :: (v2 % 16 * 16 + v3 / 4) :: (v3 % 4 * 64 + v4) :: tail)
  | _ => none

/-- `btoa`: base64-encode the code points of a string, failing (`none`, the
thrown `InvalidCharacterError`) when a character exceeds U+00FF. -/
def btoaStr (s : String) : Option String :=
  if s.data.all (fun c => c.toNat < 256) then
    some (String.mk (b64EncodeBytes (s.data.map Char.toNat)))
  else none

/-- `atob`: forgiving-base64 decode to the string of the decoded bytes,
`none` for the thrown `InvalidCharacterError`. -/
def atobStr (s : String) : Option String :=
  (b64DecodeQuads (s.data.filter (fun c => ¬ isB64Ws c))).map
    (fun bytes => String.mk (bytes.map Char.ofNat))

/-! ## JSON text (`JSON.stringify` / `JSON.parse`)

`JSON.stringify` is modelled for the JSON fragment reachable here (no
indentation argument, object members in source order).  `JSON.parse` is a
fuel-indexed recursive-descent parser over the full JSON grammar; numeric
literals are kept as raw lexemes. -/

/-- Whitespace accepted between JSON tokens. -/
def isJsonWs (c : Char) : Bool :=
  c = ' ' ∨ c = '\t' ∨ c = '\n' ∨ c = '\r'

/-- Drop leading JSON whitespace. -/
def skipWs : List Char → List Char
  | [] => []
  | c :: rest => if isJsonWs c then skipWs rest else c :: rest

/-- Decimal digit test. -/
def isDig (c : Char) : Bool := '0' ≤ c ∧ c ≤ '9'

/-- Value of a hexadecimal digit (either case). -/
def hexVal (c : Char) : Option Nat :=
  if '0' ≤ c ∧ c ≤ '9' then some (c.toNat - 48)
  else if 'a' ≤ c ∧ c ≤ 'f' then some (c.toNat - 97 + 10)
  else if 'A' ≤ c ∧ c ≤ 'F' then some (c.toNat - 65 + 10)
  else none

/-- Lowercase hexadecimal digit for a value below 16. -/
def hexDigitLower (n : Nat) : Char :=
  if n < 10 then Char.ofNat (48 + n) else Char.ofNat (97 + (n - 10))

/-- `JSON.stringify`'s escaping of one string character. -/
def escapeChar (c : Char) : List Char :=
  if c = '"' then ['\\', '"']
  else if c = '\\' then ['\\', '\\']
  else if c = '\x08' then ['\\', 'b']
  else if c = '\t' then ['\\', 't']
  else if c = '\n' then ['\\', 'n']
  else if c = '\x0c' then ['\\', 'f']
  else if c = '\r' then ['\\', 'r']
  else if c.toNat < 32 then
    ['\\', 'u', '0', '0', hexDigitLower (c.toNat / 16), hexDigitLower (c.toNat % 16)]
  else [c]

/-- Escape every character of a string body. -/
def escapeChars : List Char → List Char
  | [] => []
  | c :: rest => escapeChar c ++ escapeChars rest

/-- A JSON string literal: quoted, escaped body. -/
def stringifyString (s : String) : List Char :=
  '"' :: (escapeChars s.data ++ ['"'])

mutual

/-- `JSON.stringify` of a value (compact form, members in order). -/
def stringifyVal : Json → List Char
  | .null => 'n' :: ['u', 'l', 'l']
  | .bool true => 't' :: ['r', 'u', 'e']
  | .bool false => 'f' :: ['a', 'l', 's', 'e']
  | .num lex => lex.data
  | .str s => stringifyString s
  | .arr [] => ['[', ']']
  | .arr (x :: xs) => '[' :: (stringifyVal x ++ stringifyElems xs)
  | .obj [] => ['{', '}']
  | .obj ((k, v) :: ms) =>
      '{' :: (stringifyString k ++ (':' :: stringifyVal v) ++ stringifyMembers ms)
  termination_by structural j => j

/-- Remaining array elements, each preceded by a comma, then `]`. -/
def stringifyElems : List Json → List Char
  | [] => [']']
  | y :: ys => ',' :: (stringifyVal y ++ stringifyElems ys)
  termination_by structural ys => ys

/-- Remaining object members, each preceded by a comma, then the closing
brace. -/
def stringifyMembers : List (String × Json) → List Char
  | [] => ['}']
  | (k, v) :: ms =>
      ',' :: (stringifyString k ++ (':' :: stringifyVal v) ++ stringifyMembers ms)
  termination_by structural ms => ms

end

/-- `JSON.stringify` as a string-valued function. -/
def jsonStringify (j : Json) : String := String.mk (stringifyVal j)

/-- Parse a JSON string body after the opening quote, returning the denoted
UTF-16 code units and the input after the closing quote. -/
def parseStringUnits : List Char → Option (List Nat × List Char)
  | [] => none
  | c :: rest =>
    if c = '"' then some ([], rest)
    else if c = '\\' then
      match rest with
      | [] => none
      | e :: r =>
        if e = '"' then (parseStringUnits r).map (fun p => (34 :: p.1, p.2))
        else if e = '\\' then (parseStringUnits r).map (fun p => (92 :: p.1, p.2))
        else if e = '/' then (parseStringUnits r).map (fun p => (47 :: p.1, p.2))
        else if e = 'b' then (parseStringUnits r).map (fun p => (8 :: p.1, p.2))
        else if e = 'f' then (parseStringUnits r).map (fun p => (12 :: p.1, p.2))
        else if e = 'n' then (parseStringUnits r).map (fun p => (10 :: p.1, p.2))
        else if e = 'r' then (parseStringUnits r).map (fun p => (13 :: p.1, p.2))
        else if e = 't' then (parseStringUnits r).map (fun p => (9 :: p.1, p.2))
        else if e = 'u' then
          match r with
          | h1 :: h2 :: h3 :: h4 :: r2 =>
            match hexVal h1, hexVal h2, hexVal h3, hexVal h4 with
            | some a, some b, some c2, some d =>
              (parseStringUnits r2).map
                (fun p => ((a * 4096 + b * 256 + c2 * 16 + d) :: p.1, p.2))
            | _, _, _, _ => none
          | _ => none
        else none
    else if c.toNat < 32 then none
    else (parseStringUnits rest).map (fun p => (c.toNat :: p.1, p.2))

/-- Turn parsed UTF-16 code units into characters, pairing surrogates and
replacing lone surrogates with U+FFFD. -/
def unitsToChars : List Nat → List Char
  | [] => []
  | u :: rest =>
    if 0xD800 ≤ u ∧ u < 0xDC00 then
      match rest with
      | v :: rest2 =>
        if 0xDC00 ≤ v ∧ v < 0xE000 then
          Char.ofNat (0x10000 + (u - 0xD800) * 1024 + (v - 0xDC00)) :: unitsToChars rest2
        else Char.ofNat 0xFFFD :: unitsToChars (v :: rest2)
      | [] => [Char.ofNat 0xFFFD]
    else if 0xDC00 ≤ u ∧ u < 0xE000 then Char.ofNat 0xFFFD :: unitsToChars rest
    else Char.ofNat u :: unitsToChars rest

/-- Longest prefix of decimal digits. -/
def takeDigits : List Char → List Char × List Char
  | [] => ([], [])
  | c :: rest =>
    if isDig c then
      let p := takeDigits rest
      (c :: p.1, p.2)
    else ([], c :: rest)

/-- Integer part of a JSON number: `0` or a nonzero digit then digits. -/
def lexInt : List Char → Option (List Char × List Char)
  | [] => none
  | c :: rest =>
    if c = '0' then some (['0'], rest)
    else if '1' ≤ c ∧ c ≤ '9' then
      let p := takeDigits rest
      some (c :: p.1, p.2)
    else none

/-- Optional fraction part; a bare `.` without digits is malformed. -/
def lexFrac : List Char → Option (List Char × List Char)
  | '.' :: rest =>
    match rest with
    | c :: r =>
      if isDig c then
        let p := takeDigits r
        some ('.' :: c :: p.1, p.2)
      else none
    | [] => none
  | cs => some ([], cs)

/-- Optional exponent part; `e`/`E`, optional sign, at least one digit. -/
def lexExp : List Char → Option (List Char × List Char)
  | [] => some ([], [])
  | c :: rest =>
    if c = 'e' ∨ c = 'E' then
      match rest with
      | s :: r =>
        if s = '+' ∨ s = '-' then
          match r with
          | d :: r2 =>
            if isDig d then
              let p := takeDigits r2
              some (c :: s :: d :: p.1, p.2)
            else none
          | [] => none
        else if isDig s then
          let p := takeDigits r
          some (c :: s :: p.1, p.2)
        else none
      | [] => none
    else some ([], c :: rest)

/-- Lex a JSON numeric literal, keeping its raw text. -/
def lexNumber (cs : List Char) : Option (String × List Char) :=
  let sign : List Char × List Char :=
    match cs with
    | '-' :: r => (['-'], r)
    | _ => ([], cs)
  (lexInt sign.2).bind fun ip =>
    (lexFrac ip.2).bind fun fp =>
      (lexExp fp.2).bind fun ep =>
        some (String.mk (sign.1 ++ ip.1 ++ fp.1 ++ ep.1), ep.2)

mutual

/-- Fuel-indexed recursive-descent parser for one JSON value. -/
def parseValue : Nat → List Char → Option (Json × List Char)
  | 0, _ => none
  | fuel + 1, cs =>
    match skipWs cs with
    | '"' :: rest =>
      (parseStringUnits rest).map
        (fun p => (Json.str (String.mk (unitsToChars p.1)), p.2))
    | '[' :: rest =>
      match skipWs rest with
      | ']' :: r => some (Json.arr [], r)
      | _ => parseElems fuel rest []
    | '{' :: rest =>
      match skipWs rest with
      | '}' :: r => some (Json.obj [], r)
      | _ => parseMembers fuel rest []
    | 'n' :: 'u' :: 'l' :: 'l' :: rest => some (Json.null, rest)
    | 't' :: 'r' :: 'u' :: 'e' :: rest => some (Json.bool true, rest)
    | 'f' :: 'a' :: 'l' :: 's' :: 'e' :: rest => some (Json.bool false, rest)
    | c :: rest =>
      if c = '-' ∨ isDig c then
        (lexNumber (c :: rest)).map (fun p => (Json.num p.1, p.2))
      else none
    | [] => none
  termination_by structural fuel _cs => fuel

/-- Parse the elements of a non-empty array up to `]`. -/
def parseElems : Nat → List Char → List Json → Option (Json × List Char)
  | 0, _, _ => none
  | fuel + 1, cs, acc =>
    (parseValue fuel cs).bind fun p =>
      match skipWs p.2 with
      | ',' :: r => parseElems fuel r (acc ++ [p.1])
      | ']' :: r => some (Json.arr (acc ++ [p.1]), r)
      | _ => none
  termination_by structural fuel _cs _acc => fuel

/-- Parse the members of a non-empty object up to the closing brace. -/
def parseMembers :
    Nat → List Char → List (String × Json) → Option (Json × List Char)
  | 0, _, _ => none
  | fuel + 1, cs, acc =>
    match skipWs cs with
    | '"' :: rest =>
      (parseStringUnits rest).bind fun q =>
        match skipWs q.2 with
        | ':' :: r2 =>
          (parseValue fuel r2).bind fun p =>
            match skipWs p.2 with
            | ',' :: r4 =>
              parseMembers fuel r4 (acc ++ [(String.mk (unitsToChars q.1), p.1)])
            | '}' :: r4 =>
              some (Json.obj (acc ++ [(String.mk (unitsToChars q.1), p.1)]), r4)
            | _ => none
        | _ => none
    | _ => none
  termination_by structural fuel _cs _acc => fuel

end

/-- `JSON.parse`: parse one value, allow trailing whitespace only; `none`
models the thrown `SyntaxError`. -/
def jsonParse (s : String) : Option Json :=
  match parseValue (2 * s.data.length + 2) s.data with
  | some (j, rest) =>
    match skipWs rest with
    | [] => some j
    | _ => none
  | none => none

/-! ## Percent encoding (`encodeURIComponent` / `decodeURIComponent`)

`encodeURIComponent` leaves the unreserved characters and percent-encodes the
UTF-8 bytes of every other character with uppercase hexadecimal digits.
`decodeURIComponent` replaces maximal runs of percent escapes by the strict
UTF-8 decoding of their bytes and throws (`none`) on a malformed escape or
invalid UTF-8. -/

/-- Characters `encodeURIComponent` leaves unencoded. -/
def isUriUnreserved (c : Char) : Bool :=
  ('A' ≤ c ∧ c ≤ 'Z') ∨ ('a' ≤ c ∧ c ≤ 'z') ∨ ('0' ≤ c ∧ c ≤ '9') ∨
    c = '-' ∨ c = '_' ∨ c = '.' ∨ c = '!' ∨ c = '~' ∨ c = '*' ∨
    c = Char.ofNat 39 ∨ c = '(' ∨ c = ')'

/-- Uppercase hexadecimal digit for a value below 16. -/
def hexDigitUpper (n : Nat) : Char :=
  if n < 10 then Char.ofNat (48 + n) else Char.ofNat (65 + (n - 10))

/-- UTF-8 bytes of one character. -/
def utf8Bytes (c : Char) : List Nat :=
  let n := c.toNat
  if n < 0x80 then [n]
  else if n < 0x800 then [0xC0 + n / 64, 0x80 + n % 64]
  else if n < 0x10000 then
    [0xE0 + n / 4096, 0x80 + n / 64 % 64, 0x80 + n % 64]
  else
    [0xF0 + n / 262144, 0x80 + n / 4096 % 64, 0x80 + n / 64 % 64, 0x80 + n % 64]

/-- A percent escape for one byte, uppercase hexadecimal. -/
def pctByte (b : Nat) : List Char :=
  ['%', hexDigitUpper (b / 16), hexDigitUpper (b % 16)]

/-- `encodeURIComponent` on a character list. -/
def encodeURIChars : List Char → List Char
  | [] => []
  | c :: rest =>
    (if isUriUnreserved c then [c] else (utf8Bytes c).flatMap pctByte) ++
      encodeURIChars rest

/-- `encodeURIComponent`. -/
def encodeURIComponentStr (s : String) : String :=
  String.mk (encodeURIChars s.data)

/-- Split a percent-encoded input into literal characters and escape bytes;
`none` when a `%` is not followed by two hexadecimal digits. -/
def pctUnits : List Char → Option (List (Char ⊕ Nat))
  | [] => some []
  | c :: rest =>
    if c = '%' then
      match rest with
      | h1 :: h2 :: rest2 =>
        match hexVal h1, hexVal h2 with
        | some a, some b =>
          (pctUnits rest2).map (fun us => Sum.inr (a * 16 + b) :: us)
        | _, _ => none
      | _ => none
    else (pctUnits rest).map (fun us => Sum.inl c :: us)

/-- Is `b` a UTF-8 continuation byte? -/
def isCont (b : Nat) : Bool := 0x80 ≤ b ∧ b < 0xC0

/-- Strict UTF-8 decoding over the mixed literal/byte units: escape bytes are
grouped into minimal well-formed sequences, anything else is rejected. -/
def decodeUnits : Nat → List (Char ⊕ Nat) → Option (List Char)
  | 0, _ => none
  | fuel + 1, us =>
    match us with
    | [] => some []
    | Sum.inl c :: rest => (decodeUnits fuel rest).map (fun cs => c :: cs)
    | Sum.inr b :: rest =>
      if b < 0x80 then (decodeUnits fuel rest).map (fun cs => Char.ofNat b :: cs)
      else if 0xC2 ≤ b ∧ b ≤ 0xDF then
        match rest with
        | Sum.inr b2 :: rest2 =>
          if isCont b2 then
            (decodeUnits fuel rest2).map
              (fun cs => Char.ofNat ((b - 0xC0) * 64 + (b2 - 0x80)) :: cs)
          else none
        | _ => none
      else if 0xE0 ≤ b ∧ b ≤ 0xEF then
        match rest with
        | Sum.inr b2 :: Sum.inr b3 :: rest2 =>
          if (isCont b2 ∧ isCont b3) ∧
              (b ≠ 0xE0 ∨ 0xA0 ≤ b2) ∧ (b ≠ 0xED ∨ b2 < 0xA0) then
            (decodeUnits fuel rest2).map
              (fun cs =>
                Char.ofNat ((b - 0xE0) * 4096 + (b2 - 0x80) * 64 + (b3 - 0x80)) :: cs)
          else none
        | _ => none
      else if 0xF0 ≤ b ∧ b ≤ 0xF4 then
        match rest with
        | Sum.inr b2 :: Sum.inr b3 :: Sum.inr b4 :: rest2 =>
          if ((isCont b2 ∧ isCont b3) ∧ isCont b4) ∧
              (b ≠ 0xF0 ∨ 0x90 ≤ b2) ∧ (b ≠ 0xF4 ∨ b2 < 0x90) then
            (decodeUnits fuel rest2).map
              (fun cs =>
                Char.ofNat ((b - 0xF0) * 262144 + (b2 - 0x80) * 4096 +
                  (b3 - 0x80) * 64 + (b4 - 0x80)) :: cs)
          else none
        | _ => none
      else none
termination_by structural fuel _ => fuel

/-- `decodeURIComponent`; `none` models the thrown `URIError`.  Every step of
the grouping loop consumes at least one unit and one fuel, so `length + 1`
fuel never runs out. -/
def decodeURIComponentStr (s : String) : Option String :=
  (pctUnits s.data).bind fun us => (decodeUnits (us.length + 1) us).map String.mk

/-! ## Payload codec (`src/utils/payload.ts`)

`LinkPayload` mirrors the TypeScript interface; absent optional fields are
`none` and are omitted by `JSON.stringify`.  Serialization lists the present
fields in the interface's declaration order (`mode`, `url`, `title`,
`profileName`, `links`), which coincides with both object literals the
dashboard builds. -/

/-- One bio-page entry (`LinkItem`). -/
structure LinkItem where
  title : String
  url : String
deriving DecidableEq, Repr

/-- The payload mode tag. -/
inductive PayloadMode where
  | direct : PayloadMode
  | bio : PayloadMode
deriving DecidableEq, Repr

/-- The `LinkPayload` interface. -/
structure LinkPayload where
  mode : PayloadMode
  url : Option String := none
  title : Option String := none
  profileName : Option String := none
  links : Option (List LinkItem) := none
deriving DecidableEq, Repr

/-- The JSON object a `LinkItem` serializes to. -/
def linkItemToJson (l : LinkItem) : Json :=
  Json.obj [("title", Json.str l.title), ("url", Json.str l.url)]

/-- The JSON value `JSON.stringify` serializes a `LinkPayload` from: present
fields in declaration order, absent (`undefined`) fields omitted. -/
def payloadToJson (p : LinkPayload) : Json :=
  Json.obj
    ([("mode", Json.str (match p.mode with | .direct => "direct" | .bio => "bio"))] ++
      (match p.url with | some u => [("url", Json.str u)] | none => []) ++
      (match p.title with | some t => [("title", Json.str t)] | none => []) ++
      (match p.profileName with
        | some n => [("profileName", Json.str n)] | none => []) ++
      (match p.links with
        | some ls => [("links", Json.arr (ls.map linkItemToJson))] | none => []))

/-- `encodePayload`: `btoa(JSON.stringify(data))`, with the thrown encoding
error caught and turned into the empty string. -/
def encodePayload (p : LinkPayload) : String :=
  match btoaStr (jsonStringify (payloadToJson p)) with
  | some token => token
  | none => ""

/-- `decodePayload`: reject the empty string; try `atob` then `JSON.parse`
directly, and on any failure retry after `decodeURIComponent`; both failing
yields `null`.  The parse result is returned unchanged, so the JSON value
`null` and the failure result coincide, exactly as in the source. -/
def decodePayload (s : String) : Json :=
  if s = "" then Json.null
  else
    match (atobStr s).bind (fun txt => jsonParse txt) with
    | some j => j
    | none =>
      match ((decodeURIComponentStr s).bind atobStr).bind
          (fun txt => jsonParse txt) with
      | some j => j
      | none => Json.null

/-- `generateParaLink`, with the ambient `getCleanOrigin()` result passed
explicitly. -/
def generateParaLink (origin : String) (p : LinkPayload) : String :=
  origin ++ "/#/go?p=" ++ encodePayload p

/-! ## Dashboard generation (`handleGenerate`) and viewer validation -/

/-- JavaScript `String.prototype.trim` whitespace. -/
def isJsTrimWs (c : Char) : Bool :=
  c.toNat = 9 ∨ c.toNat = 10 ∨ c.toNat = 11 ∨ c.toNat = 12 ∨ c.toNat = 13 ∨
    c.toNat = 32 ∨ c.toNat = 0xA0 ∨ c.toNat = 0x1680 ∨
    (0x2000 ≤ c.toNat ∧ c.toNat ≤ 0x200A) ∨ c.toNat = 0x2028 ∨
    c.toNat = 0x2029 ∨ c.toNat = 0x202F ∨ c.toNat = 0x205F ∨
    c.toNat = 0x3000 ∨ c.toNat = 0xFEFF

/-- JavaScript `String.prototype.trim`. -/
def jsTrim (s : String) : String :=
  String.mk (((s.data.dropWhile (fun c => isJsTrimWs c)).reverse.dropWhile
    (fun c => isJsTrimWs c)).reverse)

/-- Does the trimmed URL already start with `http://` or `https://`
(case-insensitively), per the dashboard's `/^https?:\/\//i` test? -/
def hasHttpScheme (cs : List Char) : Bool :=
  match cs with
  | c1 :: c2 :: c3 :: c4 :: rest =>
    decide (c1 = 'h' ∨ c1 = 'H') && decide (c2 = 't' ∨ c2 = 'T') &&
      decide (c3 = 't' ∨ c3 = 'T') && decide (c4 = 'p' ∨ c4 = 'P') &&
      (match rest with
        | ':' :: '/' :: '/' :: _ => true
        | s5 :: ':' :: '/' :: '/' :: _ => decide (s5 = 's' ∨ s5 = 'S')
        | _ => false)
  | _ => false

/-- The dashboard's URL normalization: trim, then prepend `https://` when no
`http(s)://` scheme is present. -/
def normalizeUrl (u : String) : String :=
  let t := jsTrim u
  if hasHttpScheme t.data then t else "https://" ++ t

/-- `handleGenerate` in direct mode: empty trimmed URL aborts, otherwise the
payload gets the normalized URL and the trimmed title defaulted to
`Content`. -/
def handleGenerateDirect (directUrl directTitle : String) : Option LinkPayload :=
  if jsTrim directUrl = "" then none
  else
    some
      { mode := .direct
        url := some (normalizeUrl directUrl)
        title := some (if jsTrim directTitle = "" then "Content" else jsTrim directTitle) }

/-- Last-binding object field lookup (`undefined` as `none`), matching
JavaScript property access on a parsed object. -/
def Json.getField : Json → String → Option Json
  | .obj ms, k => (ms.reverse.find? (fun m => m.1 = k)).map Prod.snd
  | _, _ => none

/-- The viewer's payload shape validation (`Viewer.tsx`, the checks that
decide `ready` versus `error` after a successful decode): direct mode needs a
string `url` with non-empty trim; bio mode needs a non-empty `links` array;
any other `mode` is invalid. -/
def viewerAcceptsPayload (decoded : Json) : Bool :=
  if decoded.getField "mode" = some (Json.str "direct") then
    match decoded.getField "url" with
    | some (Json.str u) => jsTrim u ≠ ""
    | _ => false
  else if decoded.getField "mode" = some (Json.str "bio") then
    match decoded.getField "links" with
    | some (Json.arr ls) => ls.length ≠ 0
    | _ => false
  else false

/-- The spec's descriptor validity (§3): direct mode has a non-empty
destination URL; bio mode has a non-empty link sequence in which some entry
has both a non-empty title and a non-empty url. -/
def validDescriptor (p : LinkPayload) : Bool :=
  match p.mode with
  | .direct => match p.url with | some u => u ≠ "" | none => false
  | .bio =>
    match p.links with
    | some ls => ls.length ≠ 0 ∧ ls.any (fun l => l.title ≠ "" ∧ l.url ≠ "")
    | none => false

/-- All string fields of the payload are Latin-1 (code points ≤ U+00FF). -/
def latin1Str (s : String) : Bool := s.data.all (fun c => c.toNat < 256)

/-- Latin-1 restriction on every string field of a payload. -/
def payloadLatin1 (p : LinkPayload) : Bool :=
  (match p.url with | some u => latin1Str u | none => true) &&
  (match p.title with | some t => latin1Str t | none => true) &&
  (match p.profileName with | some n => latin1Str n | none => true) &&
  (match p.links with
    | some ls => ls.all (fun l => latin1Str l.title && latin1Str l.url)
    | none => true)

/-! ## Environment classification (`src/utils/environment.ts`)

`detectEnvironment` is a pure function of the ambient user-agent string (and
the `window.MSStream` flag used to exclude a desktop false positive), threaded
here as explicit arguments. -/

/-- `OSType`. -/
inductive OSType where
  | ANDROID : OSType
  | IOS : OSType
  | DESKTOP : OSType
  | UNKNOWN : OSType
deriving DecidableEq, Repr

/-- `BrowserType`. -/
inductive BrowserType where
  | REAL_BROWSER : BrowserType
  | IN_APP : BrowserType
deriving DecidableEq, Repr

/-- `EnvironmentInfo`. -/
structure EnvironmentInfo where
  os : OSType
  browserType : BrowserType
  isInAppBrowser : Bool
  appName : String
deriving DecidableEq, Repr

/-- ASCII-lowercase one character (the case folding exercised by the
case-insensitive tests in this code, whose patterns are all ASCII). -/
def lowerAscii (c : Char) : Char :=
  if 'A' ≤ c ∧ c ≤ 'Z' then Char.ofNat (c.toNat + 32) else c

/-- Is `pat` a prefix of `cs` under ASCII case folding? -/
def isPrefixCI : List Char → List Char → Bool
  | [], _ => true
  | _ :: _, [] => false
  | p :: ps, c :: cs => lowerAscii p = lowerAscii c && isPrefixCI ps cs

/-- Does `cs` contain `pat` as a substring under ASCII case folding? -/
def containsCI (cs pat : List Char) : Bool :=
  match cs with
  | [] => isPrefixCI pat []
  | _ :: rest => isPrefixCI pat cs || containsCI rest pat

/-- Case-sensitive list prefix test. -/
def isPrefixCS : List Char → List Char → Bool
  | [], _ => true
  | _ :: _, [] => false
  | p :: ps, c :: cs => p = c && isPrefixCS ps cs

/-- Case-sensitive substring test. -/
def containsSub (cs pat : List Char) : Bool :=
  match cs with
  | [] => isPrefixCS pat []
  | _ :: rest => isPrefixCS pat cs || containsSub rest pat

/-- The alternatives of `IN_APP_REGEX`, in source order. -/
def inAppSignatures : List String :=
  ["TikTok", "Instagram", "Twitter", "Snapchat", "Reddit", "Telegram",
   "Facebook", "FBAV", "FBAN", "Messenger", "Threads", "Line", "WhatsApp",
   "LinkedIn", "Twitch", "musical_ly"]

/-- `IN_APP_REGEX.test(userAgent)`: some signature occurs case-insensitively. -/
def inAppRegexTest (ua : List Char) : Bool :=
  inAppSignatures.any (fun sig => containsCI ua sig.data)

/-- `userAgent.match(IN_APP_REGEX)`: the text matched at the earliest
position, trying alternatives in source order at each position; the matched
text is the user agent's own slice. -/
def firstInAppMatch : List Char → Option (List Char)
  | [] => none
  | c :: rest =>
    match inAppSignatures.find? (fun sig => isPrefixCI sig.data (c :: rest)) with
    | some sig => some ((c :: rest).take sig.length)
    | none => firstInAppMatch rest

/-- `detectEnvironment`, as a pure function of the user agent and the
`MSStream` flag. -/
def detectEnvironment (ua : String) (msStream : Bool) : EnvironmentInfo :=
  let os : OSType :=
    if containsCI ua.data "android".data then .ANDROID
    else if (containsSub ua.data "iPad".data ∨ containsSub ua.data "iPhone".data ∨
        containsSub ua.data "iPod".data) ∧ ¬ msStream then .IOS
    else .DESKTOP
  let isInApp := inAppRegexTest ua.data
  let appName :=
    match firstInAppMatch ua.data with
    | some m => String.mk m
    | none => "Web"
  { os := os
    browserType := if isInApp then .IN_APP else .REAL_BROWSER
    isInAppBrowser := isInApp
    appName := appName }

/-- `isRealBrowser`. -/
def isRealBrowser (ua : String) (msStream : Bool) : Bool :=
  (detectEnvironment ua msStream).browserType = .REAL_BROWSER

/-! ## Routing (`src/utils/routing.ts`)

The DOM side effects of the navigation techniques are reified as a list of
effects in program order; the delayed callbacks registered with `setTimeout`
appear as timer effects carrying their delay. -/

/-- One observable navigation side effect. -/
inductive Effect where
  | assignLocation (url : String) : Effect
  | windowOpen (url target features : String) : Effect
  | anchorClick (url target rel : String) : Effect
  | timerOpen (delayMs : Nat) (url target : String) : Effect
  | timerCleanup (delayMs : Nat) : Effect
deriving DecidableEq, Repr

/-- Strip a leading `http://` or `https://` (the source's case-sensitive
`/^https?:\/\//` replace). -/
def stripHttpScheme (cs : List Char) : List Char :=
  match cs with
  | 'h' :: 't' :: 't' :: 'p' :: 's' :: ':' :: '/' :: '/' :: rest => rest
  | 'h' :: 't' :: 't' :: 'p' :: ':' :: '/' :: '/' :: rest => rest
  | _ => cs

/-- `generateAndroidIntent`. -/
def generateAndroidIntent (destination : String) : String :=
  let cleanDest := jsTrim destination
  let encodedDest := encodeURIComponentStr cleanDest
  let schemeUrl := String.mk (stripHttpScheme cleanDest.data)
  "intent://" ++ schemeUrl ++
    "#Intent;scheme=https;package=com.android.chrome;S.browser_fallback_url=" ++
    encodedDest ++ ";end;"

/-- `shouldShowBrowserTransition`. -/
def shouldShowBrowserTransition (ua : String) (msStream : Bool) : Bool :=
  let env := detectEnvironment ua msStream
  if isRealBrowser ua msStream then false
  else env.isInAppBrowser

/-- `isInstagramOrFacebook` (the current revision's `includes` tests on the
lowercased app name). -/
def isInstagramOrFacebook (appName : String) : Bool :=
  let normalized := appName.data.map lowerAscii
  containsCI normalized "instagram".data || containsCI normalized "facebook".data ||
    containsCI normalized "fbav".data || containsCI normalized "fban".data

/-- `openWithAnchorSelf`: hidden anchor with `target="_self"`, clicked, and a
100 ms cleanup timer. -/
def openWithAnchorSelf (url : String) : List Effect :=
  [Effect.anchorClick url "_self" "noopener noreferrer", Effect.timerCleanup 100]

/-- `openWithAnchorElement`: hidden anchor with `target="_blank"`, clicked,
and a 100 ms cleanup timer. -/
def openWithAnchorElement (url : String) : List Effect :=
  [Effect.anchorClick url "_blank" "noopener noreferrer", Effect.timerCleanup 100]

/-- `openInSystemBrowser` (the current `src/utils/routing.ts` revision). -/
def openInSystemBrowser (ua : String) (msStream : Bool) (url : String) :
    List Effect :=
  let env := detectEnvironment ua msStream
  if env.isInAppBrowser then
    if env.os = .IOS ∧ isInstagramOrFacebook env.appName then
      openWithAnchorSelf url
    else
      openWithAnchorElement url
  else if env.os = .IOS then
    openWithAnchorElement url
  else
    [Effect.windowOpen url "_blank" "noopener,noreferrer"]

/-! ## Claim C1: the confirmation gate versus the Desktop classification -/

/-- C1, counterexample: a desktop user agent carrying an in-app signature is
classified `DESKTOP` with `isEmbeddedBrowser = true`, and the confirmation
gate `shouldShowBrowserTransition` returns `true`, so this desktop browser IS
gated, contrary to the claim. -/
theorem C1_counterexample :
    (detectEnvironment "Mozilla/5.0 (Windows NT 10.0; Win64; x64) Instagram 250.0"
        false).os = OSType.DESKTOP ∧
    (detectEnvironment "Mozilla/5.0 (Windows NT 10.0; Win64; x64) Instagram 250.0"
        false).isInAppBrowser = true ∧
    shouldShowBrowserTransition
        "Mozilla/5.0 (Windows NT 10.0; Win64; x64) Instagram 250.0" false = true := by
  decide

/-- C1, amended: the confirmation gate equals `isEmbeddedBrowser` for every
classification, regardless of the OS family; in particular a Desktop
classification is gated exactly when an in-app signature matched, and proceeds
immediately only when none did. -/
theorem C1_amended_gate_keyed_on_embedding (ua : String) (ms : Bool) :
    shouldShowBrowserTransition ua ms = (detectEnvironment ua ms).isInAppBrowser := by
  unfold shouldShowBrowserTransition isRealBrowser detectEnvironment
  by_cases h : inAppRegexTest ua.data <;> simp [h]

/-! ## Claim C2: Android embedded confirmation technique -/

/-- C2, counterexample: for an Android Instagram user agent, confirming
navigation performs the synthetic `_blank` anchor click with a 100 ms cleanup
timer; no intent-style location assignment is issued and no delayed fallback
open is armed. -/
theorem C2_counterexample :
    openInSystemBrowser "Mozilla/5.0 (Linux; Android 13; Pixel 7) Instagram 250.0"
        false "https://example.com" =
      [Effect.anchorClick "https://example.com" "_blank" "noopener noreferrer",
       Effect.timerCleanup 100] ∧
    Effect.assignLocation (generateAndroidIntent "https://example.com") ∉
      openInSystemBrowser "Mozilla/5.0 (Linux; Android 13; Pixel 7) Instagram 250.0"
        false "https://example.com" ∧
    Effect.timerOpen 2500 "https://example.com" "_blank" ∉
      openInSystemBrowser "Mozilla/5.0 (Linux; Android 13; Pixel 7) Instagram 250.0"
        false "https://example.com" := by
  decide

/-- C2, amended: on every Android embedded classification the confirmation
handler uses the uniform synthetic `_blank` anchor click with only the 100 ms
cleanup timer; `generateAndroidIntent` does produce an intent-style URI naming
`com.android.chrome` and carrying the percent-encoded URL as
`browser_fallback_url`, but `openInSystemBrowser` never invokes it. -/
theorem C2_amended_android_uses_anchor (ua : String) (ms : Bool) (url : String)
    (hos : (detectEnvironment ua ms).os = OSType.ANDROID)
    (hin : (detectEnvironment ua ms).isInAppBrowser = true) :
    openInSystemBrowser ua ms url =
      [Effect.anchorClick url "_blank" "noopener noreferrer",
       Effect.timerCleanup 100] ∧
    generateAndroidIntent url =
      "intent://" ++ String.mk (stripHttpScheme (jsTrim url).data) ++
        "#Intent;scheme=https;package=com.android.chrome;S.browser_fallback_url=" ++
        encodeURIComponentStr (jsTrim url) ++ ";end;" := by
  constructor
  · simp [openInSystemBrowser, hin, hos, openWithAnchorElement]
  · rfl

/-- C2, witness for the amended theorem at a concrete Android Instagram
classification. -/
theorem C2_amended_android_uses_anchor_witness :
    (detectEnvironment "Mozilla/5.0 (Linux; Android 13; Pixel 7) Instagram 250.0"
        false).os = OSType.ANDROID ∧
    (detectEnvironment "Mozilla/5.0 (Linux; Android 13; Pixel 7) Instagram 250.0"
        false).isInAppBrowser = true ∧
    openInSystemBrowser "Mozilla/5.0 (Linux; Android 13; Pixel 7) Instagram 250.0"
        false "https://example.com" =
      [Effect.anchorClick "https://example.com" "_blank" "noopener noreferrer",
       Effect.timerCleanup 100] :=
  ⟨by decide, by decide,
    (C2_amended_android_uses_anchor
      "Mozilla/5.0 (Linux; Android 13; Pixel 7) Instagram 250.0" false
      "https://example.com" (by decide) (by decide)).1⟩

/-! ## Claim C5: bio-mode shape validation of fully-empty entries -/

/-- C5, counterexample: a decoded bio payload whose only entry has an empty
title and an empty url passes the viewer's shape validation (the flow reaches
Ready, not Error), contrary to the claim. -/
theorem C5_counterexample :
    decodePayload (encodePayload
        { mode := .bio, links := some [{ title := "", url := "" }] }) =
      Json.obj [("mode", Json.str "bio"),
        ("links", Json.arr [Json.obj [("title", Json.str ""), ("url", Json.str "")]])] ∧
    viewerAcceptsPayload
      (Json.obj [("mode", Json.str "bio"),
        ("links", Json.arr [Json.obj [("title", Json.str ""), ("url", Json.str "")]])]) =
      true := by
  decide

/-- C5, amended: the viewer's bio-mode validation checks only that `links` is
a non-empty array; every decoded bio payload with a non-empty `links`
sequence reaches Ready, whether or not any entry has a non-empty title and
url. -/
theorem C5_amended_bio_checks_nonempty_only (ls : List Json) (h : ls ≠ []) :
    viewerAcceptsPayload
      (Json.obj [("mode", Json.str "bio"), ("links", Json.arr ls)]) = true := by
  have hlen : ls.length ≠ 0 := fun hl => h (List.eq_nil_of_length_eq_zero hl)
  simp [viewerAcceptsPayload, Json.getField, List.find?, hlen]

/-- C5, witness for the amended theorem at the all-empty single entry. -/
theorem C5_amended_bio_checks_nonempty_only_witness :
    ([Json.obj [("title", Json.str ""), ("url", Json.str "")]] ≠ ([] : List Json)) ∧
    viewerAcceptsPayload
      (Json.obj [("mode", Json.str "bio"),
        ("links", Json.arr [Json.obj [("title", Json.str ""), ("url", Json.str "")]])]) =
      true :=
  ⟨by decide,
    C5_amended_bio_checks_nonempty_only
      [Json.obj [("title", Json.str ""), ("url", Json.str "")]] (by decide)⟩

/-! ## Claim C6: uniformity of the embedded-browser technique -/

/-- C6, counterexample: two embedded classifications with the same OS family
(`IOS`) that differ only in the host app name get different techniques: the
Instagram user agent gets the `_self` anchor click, the TikTok one the
`_blank` anchor click — an Instagram/Facebook-specific branch. -/
theorem C6_counterexample :
    (detectEnvironment
        "Mozilla/5.0 (iPhone; CPU iPhone OS 16_0 like Mac OS X) Instagram 250.0"
        false).os = OSType.IOS ∧
    (detectEnvironment
        "Mozilla/5.0 (iPhone; CPU iPhone OS 16_0 like Mac OS X) TikTok 30.0"
        false).os = OSType.IOS ∧
    (detectEnvironment
        "Mozilla/5.0 (iPhone; CPU iPhone OS 16_0 like Mac OS X) Instagram 250.0"
        false).isInAppBrowser = true ∧
    (detectEnvironment
        "Mozilla/5.0 (iPhone; CPU iPhone OS 16_0 like Mac OS X) TikTok 30.0"
        false).isInAppBrowser = true ∧
    (detectEnvironment
        "Mozilla/5.0 (iPhone; CPU iPhone OS 16_0 like Mac OS X) Instagram 250.0"
        false).appName = "Instagram" ∧
    (detectEnvironment
        "Mozilla/5.0 (iPhone; CPU iPhone OS 16_0 like Mac OS X) TikTok 30.0"
        false).appName = "TikTok" ∧
    openInSystemBrowser
        "Mozilla/5.0 (iPhone; CPU iPhone OS 16_0 like Mac OS X) Instagram 250.0"
        false "https://example.com" =
      [Effect.anchorClick "https://example.com" "_self" "noopener noreferrer",
       Effect.timerCleanup 100] ∧
    openInSystemBrowser
        "Mozilla/5.0 (iPhone; CPU iPhone OS 16_0 like Mac OS X) TikTok 30.0"
        false "https://example.com" =
      [Effect.anchorClick "https://example.com" "_blank" "noopener noreferrer",
       Effect.timerCleanup 100] := by
  decide

/-- C6, amended: for embedded classifications the technique is the `_self`
anchor click exactly when the OS is iOS and the host app name matches the
Instagram/Facebook family, and the uniform `_blank` anchor click in every
other case (in particular for every embedded Android classification,
independent of the host app). -/
theorem C6_amended_meta_branch_on_ios (ua : String) (ms : Bool) (url : String)
    (hin : (detectEnvironment ua ms).isInAppBrowser = true) :
    openInSystemBrowser ua ms url =
      (if (detectEnvironment ua ms).os = OSType.IOS ∧
          isInstagramOrFacebook (detectEnvironment ua ms).appName then
        openWithAnchorSelf url
      else openWithAnchorElement url) := by
  simp only [openInSystemBrowser, hin]
  simp

/-- C6, witness for the amended theorem at the iOS TikTok classification. -/
theorem C6_amended_meta_branch_on_ios_witness :
    (detectEnvironment
        "Mozilla/5.0 (iPhone; CPU iPhone OS 16_0 like Mac OS X) TikTok 30.0"
        false).isInAppBrowser = true ∧
    openInSystemBrowser
        "Mozilla/5.0 (iPhone; CPU iPhone OS 16_0 like Mac OS X) TikTok 30.0"
        false "https://example.com" =
      (if (detectEnvironment
            "Mozilla/5.0 (iPhone; CPU iPhone OS 16_0 like Mac OS X) TikTok 30.0"
            false).os = OSType.IOS ∧
          isInstagramOrFacebook (detectEnvironment
            "Mozilla/5.0 (iPhone; CPU iPhone OS 16_0 like Mac OS X) TikTok 30.0"
            false).appName then
        openWithAnchorSelf "https://example.com"
      else openWithAnchorElement "https://example.com") :=
  ⟨by decide,
    C6_amended_meta_branch_on_ios
      "Mozilla/5.0 (iPhone; CPU iPhone OS 16_0 like Mac OS X) TikTok 30.0" false
      "https://example.com" (by decide)⟩

/-! ## Claim C8: end-to-end scenario A -/

/-- C8: generating from the creator inputs `example.com` with an empty title
builds the descriptor with `https://` prepended once and the default title
`Content`, and encode-then-decode returns exactly that descriptor's JSON
form; normalization is idempotent on the result. -/
theorem C8_scenario_a :
    handleGenerateDirect "example.com" "" =
      some { mode := .direct, url := some "https://example.com",
             title := some "Content" } ∧
    decodePayload (encodePayload
        { mode := .direct, url := some "https://example.com",
          title := some "Content" }) =
      Json.obj [("mode", Json.str "direct"), ("url", Json.str "https://example.com"),
        ("title", Json.str "Content")] ∧
    normalizeUrl "example.com" = "https://example.com" ∧
    normalizeUrl (normalizeUrl "example.com") = normalizeUrl "example.com" := by
  decide

/-! ## Base64 codec lemmas -/

/-- Every base64 digit of a six-bit value decodes back to it. -/
theorem charToSix_sixToChar : ∀ n < 64, charToSix (sixToChar n) = some n := by decide

/-- No base64 digit is the padding character. -/
theorem sixToChar_ne_pad : ∀ n < 64, sixToChar n ≠ '=' := by decide

/-- Decoding inverts encoding on byte lists. -/
theorem b64_decode_encode :
    ∀ bs : List Nat, (∀ b ∈ bs, b < 256) →
      b64DecodeQuads (b64EncodeBytes bs) = some bs := by
  intro bs h
  induction bs using b64EncodeBytes.induct with
  | case1 => rfl
  | case2 a =>
    have ha : a < 256 := h a (by simp)
    simp [b64EncodeBytes, b64DecodeQuads,
      charToSix_sixToChar _ (by omega : a / 4 < 64),
      charToSix_sixToChar _ (by omega : a % 4 * 16 < 64)]
    omega
  | case3 a b =>
    have ha : a < 256 := h a (by simp)
    have hb : b < 256 := h b (by simp)
    simp [b64EncodeBytes, b64DecodeQuads, sixToChar_ne_pad _ (by omega : b % 16 * 4 < 64),
      charToSix_sixToChar _ (by omega : a / 4 < 64),
      charToSix_sixToChar _ (by omega : a % 4 * 16 + b / 16 < 64),
      charToSix_sixToChar _ (by omega : b % 16 * 4 < 64)]
    constructor <;> omega
  | case4 a b c rest ih =>
    have ha : a < 256 := h a (by simp)
    have hb : b < 256 := h b (by simp)
    have hc : c < 256 := h c (by simp)
    have hrest : ∀ x ∈ rest, x < 256 := fun x hx => h x (by simp [hx])
    have h3 : sixToChar (b % 16 * 4 + c / 64) ≠ '=' := sixToChar_ne_pad _ (by omega)
    have h4 : sixToChar (c % 64) ≠ '=' := sixToChar_ne_pad _ (by omega)
    simp [b64EncodeBytes, b64DecodeQuads, h3, h4, ih hrest,
      charToSix_sixToChar _ (by omega : a / 4 < 64),
      charToSix_sixToChar _ (by omega : a % 4 * 16 + b / 16 < 64),
      charToSix_sixToChar _ (by omega : b % 16 * 4 + c / 64 < 64),
      charToSix_sixToChar _ (by omega : c % 64 < 64)]
    refine ⟨by omega, by omega, by omega⟩

/-- A character outside the alphabet that is not padding makes base64
decoding fail wherever it occurs. -/
theorem b64DecodeQuads_bad :
    ∀ cs (c : Char), c ∈ cs → charToSix c = none → c ≠ '=' →
      b64DecodeQuads cs = none := by
  intro cs c hmem hsix hne
  induction cs using b64DecodeQuads.induct with
  | case1 =>
    simp at hmem
  | case2 c1 c2 =>
    simp only [List.mem_cons, List.not_mem_nil, or_false] at hmem
    rcases hmem with rfl | rfl <;> simp [b64DecodeQuads, hsix]
  | case3 c1 c2 c3 =>
    simp only [List.mem_cons, List.not_mem_nil, or_false] at hmem
    rcases hmem with rfl | rfl | rfl <;> simp [b64DecodeQuads, hsix]
  | case4 c1 c2 =>
    simp only [List.mem_cons, List.not_mem_nil, or_false] at hmem
    rcases hmem with rfl | rfl | rfl | rfl <;>
      first
        | exact absurd rfl hne
        | (simp [b64DecodeQuads, hsix]; done)
  | case5 c1 c2 c3 =>
    simp only [List.mem_cons, List.not_mem_nil, or_false] at hmem
    rcases hmem with rfl | rfl | rfl | rfl <;>
      first
        | exact absurd rfl hne
        | (simp [b64DecodeQuads, hsix]; done)
  | case6 c1 c2 c3 c4 rest hx1 hx2 ih =>
    simp only [List.mem_cons] at hmem
    rcases hmem with rfl | rfl | rfl | rfl | hmem
    · simp [b64DecodeQuads, hsix]
    · simp [b64DecodeQuads, hsix]
    · simp [b64DecodeQuads, hsix]
    · simp [b64DecodeQuads, hsix]
    · simp [b64DecodeQuads, ih hmem]
  | case7 cs h1 h2 h3 h4 h5 h6 =>
    match cs, h1, h2, h3, h6 with
    | [], h1, _, _, _ => exact absurd rfl h1
    | [a], _, _, _, _ => rfl
    | [a, b], _, h2, _, _ => exact absurd rfl (h2 a b)
    | [a, b, d], _, _, h3, _ => exact absurd rfl (h3 a b d)
    | a :: b :: d :: e :: rest, _, _, _, h6 => exact absurd rfl (h6 a b d e rest)

/-- No base64 digit is whitespace. -/
theorem sixToChar_not_ws : ∀ n < 64, isB64Ws (sixToChar n) = false := by decide

/-- Encoded output contains no whitespace. -/
theorem b64Encode_no_ws :
    ∀ bs : List Nat, (∀ b ∈ bs, b < 256) →
      ∀ c ∈ b64EncodeBytes bs, isB64Ws c = false := by
  intro bs h
  induction bs using b64EncodeBytes.induct with
  | case1 => simp [b64EncodeBytes]
  | case2 a =>
    have ha : a < 256 := h a (by simp)
    intro c hc
    simp only [b64EncodeBytes, List.mem_cons, List.not_mem_nil, or_false] at hc
    rcases hc with rfl | rfl | rfl | rfl
    · exact sixToChar_not_ws _ (by omega)
    · exact sixToChar_not_ws _ (by omega)
    · rfl
    · rfl
  | case3 a b =>
    have ha : a < 256 := h a (by simp)
    have hb : b < 256 := h b (by simp)
    intro c hc
    simp only [b64EncodeBytes, List.mem_cons, List.not_mem_nil, or_false] at hc
    rcases hc with rfl | rfl | rfl | rfl
    · exact sixToChar_not_ws _ (by omega)
    · exact sixToChar_not_ws _ (by omega)
    · exact sixToChar_not_ws _ (by omega)
    · rfl
  | case4 a b c rest ih =>
    have ha : a < 256 := h a (by simp)
    have hb : b < 256 := h b (by simp)
    have hc256 : c < 256 := h c (by simp)
    have hrest : ∀ x ∈ rest, x < 256 := fun x hx => h x (by simp [hx])
    intro d hd
    simp only [b64EncodeBytes, List.mem_cons] at hd
    rcases hd with rfl | rfl | rfl | rfl | hd
    · exact sixToChar_not_ws _ (by omega)
    · exact sixToChar_not_ws _ (by omega)
    · exact sixToChar_not_ws _ (by omega)
    · exact sixToChar_not_ws _ (by omega)
    · exact ih hrest d hd

/-- `atob` inverts `btoa` on Latin-1 strings. -/
theorem atob_btoa (s : String) (h : s.data.all (fun c => c.toNat < 256)) :
    atobStr (String.mk (b64EncodeBytes (s.data.map Char.toNat))) = some s := by
  have hbytes : ∀ b ∈ s.data.map Char.toNat, b < 256 := by
    intro b hb
    rw [List.mem_map] at hb
    obtain ⟨c, hc, rfl⟩ := hb
    have h2 : ∀ c ∈ s.data, c.toNat < 256 := by simpa using h
    exact h2 c hc
  show (b64DecodeQuads ((b64EncodeBytes (s.data.map Char.toNat)).filter
      (fun c => ¬ isB64Ws c))).map
        (fun bytes => String.mk (bytes.map Char.ofNat)) = some s
  have hfil : (b64EncodeBytes (s.data.map Char.toNat)).filter
      (fun c => ¬ isB64Ws c) = b64EncodeBytes (s.data.map Char.toNat) :=
    List.filter_eq_self.mpr (fun c hc => by
      simpa using b64Encode_no_ws _ hbytes c hc)
  rw [hfil, b64_decode_encode _ hbytes]
  simp only [Option.map_some', List.map_map]
  rw [show s.data.map (Char.ofNat ∘ Char.toNat) = s.data.map id from
    List.map_congr_left (fun c _ => Char.ofNat_toNat c)]
  rw [List.map_id]

/-- `btoa` then `atob` round-trips whenever `btoa` succeeds. -/
theorem atobStr_btoaStr (s t : String) (h : btoaStr s = some t) :
    atobStr t = some s := by
  unfold btoaStr at h
  split at h
  · rename_i hall
    rw [Option.some_inj] at h
    rw [← h]
    exact atob_btoa s hall
  · exact absurd h (by simp)

/-! ## JSON parse/stringify round trip

The round trip is proved for the textual fragment of `Json` — strings,
arrays and objects whose leaves are strings — which covers every value a
`LinkPayload` serializes to.  (Numeric and literal leaves never occur in a
payload.) -/

mutual

/-- Values built from strings, arrays and objects only. -/
def TextualJson : Json → Bool
  | .str _ => true
  | .arr xs => TextualArr xs
  | .obj ms => TextualObj ms
  | _ => false
  termination_by structural j => j

/-- Textual element lists. -/
def TextualArr : List Json → Bool
  | [] => true
  | x :: xs => TextualJson x && TextualArr xs
  termination_by structural xs => xs

/-- Textual member lists. -/
def TextualObj : List (String × Json) → Bool
  | [] => true
  | (_, v) :: ms => TextualJson v && TextualObj ms
  termination_by structural ms => ms

end

mutual

/-- Fuel sufficient for `parseValue` on the serialized form of a value. -/
def jsonFuel : Json → Nat
  | .arr xs => 1 + elemsFuel xs
  | .obj ms => 1 + membersFuel ms
  | _ => 1
  termination_by structural j => j

/-- Fuel sufficient for `parseElems` on serialized elements. -/
def elemsFuel : List Json → Nat
  | [] => 0
  | x :: xs => 1 + jsonFuel x + elemsFuel xs
  termination_by structural xs => xs

/-- Fuel sufficient for `parseMembers` on serialized members. -/
def membersFuel : List (String × Json) → Nat
  | [] => 0
  | (_, v) :: ms => 1 + jsonFuel v + membersFuel ms
  termination_by structural ms => ms

end

/-- A character's code point is never in the surrogate range. -/
theorem char_not_surrogate (c : Char) :
    c.toNat < 0xD800 ∨ 0xE000 ≤ c.toNat := by
  rcases c.valid with h | ⟨h1, h2⟩
  · left; exact h
  · right; exact h1

/-- Parsed code units of verbatim characters map back to the characters. -/
theorem unitsToChars_map_toNat :
    ∀ cs : List Char, unitsToChars (cs.map Char.toNat) = cs := by
  intro cs
  induction cs with
  | nil => rfl
  | cons c rest ih =>
    have hval := char_not_surrogate c
    have h1 : ¬ (0xD800 ≤ c.toNat ∧ c.toNat < 0xDC00) := by omega
    have h2 : ¬ (0xDC00 ≤ c.toNat ∧ c.toNat < 0xE000) := by omega
    rw [List.map_cons, unitsToChars.eq_def]
    simp only [h1, h2, if_false, ite_false, if_neg]
    rw [ih, Char.ofNat_toNat]

/-- Hexadecimal digits emitted by the escaper evaluate to their value. -/
theorem hexVal_hexDigitLower : ∀ n < 16, hexVal (hexDigitLower n) = some n := by
  decide

/-- Skipping whitespace leaves a non-whitespace head alone. -/
theorem skipWs_cons (c : Char) (l : List Char) (h : isJsonWs c = false) :
    skipWs (c :: l) = c :: l := by
  simp [skipWs, h]

/-- Equation: closing quote. -/
theorem psu_quote (rest : List Char) :
    parseStringUnits ('"' :: rest) = some ([], rest) := by
  rw [parseStringUnits.eq_def]; simp

theorem psu_esc_quote (r : List Char) :
    parseStringUnits ('\\' :: '"' :: r) =
      (parseStringUnits r).map (fun p => (34 :: p.1, p.2)) := by
  rw [parseStringUnits.eq_def]; simp

theorem psu_esc_bs (r : List Char) :
    parseStringUnits ('\\' :: '\\' :: r) =
      (parseStringUnits r).map (fun p => (92 :: p.1, p.2)) := by
  rw [parseStringUnits.eq_def]; simp

theorem psu_esc_b (r : List Char) :
    parseStringUnits ('\\' :: 'b' :: r) =
      (parseStringUnits r).map (fun p => (8 :: p.1, p.2)) := by
  rw [parseStringUnits.eq_def]; simp

theorem psu_esc_t (r : List Char) :
    parseStringUnits ('\\' :: 't' :: r) =
      (parseStringUnits r).map (fun p => (9 :: p.1, p.2)) := by
  rw [parseStringUnits.eq_def]; simp

theorem psu_esc_n (r : List Char) :
    parseStringUnits ('\\' :: 'n' :: r) =
      (parseStringUnits r).map (fun p => (10 :: p.1, p.2)) := by
  rw [parseStringUnits.eq_def]; simp

theorem psu_esc_f (r : List Char) :
    parseStringUnits ('\\' :: 'f' :: r) =
      (parseStringUnits r).map (fun p => (12 :: p.1, p.2)) := by
  rw [parseStringUnits.eq_def]; simp

theorem psu_esc_r (r : List Char) :
    parseStringUnits ('\\' :: 'r' :: r) =
      (parseStringUnits r).map (fun p => (13 :: p.1, p.2)) := by
  rw [parseStringUnits.eq_def]; simp

theorem psu_esc_u (h1 h2 h3 h4 : Char) (r : List Char) :
    parseStringUnits ('\\' :: 'u' :: h1 :: h2 :: h3 :: h4 :: r) =
      (match hexVal h1, hexVal h2, hexVal h3, hexVal h4 with
        | some a, some b, some c2, some d =>
          (parseStringUnits r).map
            (fun p => ((a * 4096 + b * 256 + c2 * 16 + d) :: p.1, p.2))
        | _, _, _, _ => none) := by
  rw [parseStringUnits.eq_def]; simp

theorem psu_other (c : Char) (rest : List Char) (hq : ¬ c = '"') (hb : ¬ c = '\\')
    (hc : ¬ c.toNat < 32) :
    parseStringUnits (c :: rest) =
      (parseStringUnits rest).map (fun p => (c.toNat :: p.1, p.2)) := by
  rw [parseStringUnits.eq_def]; simp [hq, hb, hc]

theorem parseStringUnits_escape :
    ∀ (cs rest : List Char),
      parseStringUnits (escapeChars cs ++ '"' :: rest) =
        some (cs.map Char.toNat, rest) := by
  intro cs rest
  induction cs with
  | nil => simpa [escapeChars] using psu_quote rest
  | cons c cs ih =>
    by_cases h1 : c = '"'
    · subst h1
      simp [escapeChars, escapeChar, psu_esc_quote, ih]
    by_cases h2 : c = '\\'
    · subst h2
      simp [escapeChars, escapeChar, psu_esc_bs, ih]
    by_cases h3 : c = '\x08'
    · subst h3
      simp [escapeChars, escapeChar, psu_esc_b, ih]
    by_cases h4 : c = '\t'
    · subst h4
      simp [escapeChars, escapeChar, h1, h2, h3, psu_esc_t, ih]
    by_cases h5 : c = '\n'
    · subst h5
      simp [escapeChars, escapeChar, h1, h2, h3, h4, psu_esc_n, ih]
    by_cases h6 : c = '\x0c'
    · subst h6
      simp [escapeChars, escapeChar, h1, h2, h3, h4, h5, psu_esc_f, ih]
    by_cases h7 : c = '\r'
    · subst h7
      simp [escapeChars, escapeChar, h1, h2, h3, h4, h5, h6, psu_esc_r, ih]
    by_cases h8 : c.toNat < 32
    · have hd : c.toNat / 16 < 16 := by omega
      have hm : c.toNat % 16 < 16 := by omega
      simp only [escapeChars, escapeChar, h1, h2, h3, h4, h5, h6, h7, h8,
        if_true, if_false, ite_true, ite_false, if_neg, if_pos,
        List.cons_append, List.append_assoc, List.nil_append]
      have h0 : hexVal '0' = some 0 := by decide
      rw [psu_esc_u]
      simp [h0, hexVal_hexDigitLower _ hd, hexVal_hexDigitLower _ hm, ih]
      omega
    · simp only [escapeChars, escapeChar, h1, h2, h3, h4, h5, h6, h7, h8,
        List.cons_append, List.append_assoc, List.nil_append]
      simp only [if_false]
      rw [List.singleton_append, psu_other c _ h1 h2 h8]
      simp [ih]

/-- Serialized textual values start with a quote or an open bracket. -/
theorem stringify_head (j : Json) (ht : TextualJson j = true) :
    ∃ c cs, stringifyVal j = c :: cs ∧ (c = '"' ∨ c = '[' ∨ c = '{') := by
  match j with
  | .str s => exact ⟨'"', _, rfl, Or.inl rfl⟩
  | .arr [] => exact ⟨'[', _, rfl, Or.inr (Or.inl rfl)⟩
  | .arr (x :: xs) => exact ⟨'[', _, rfl, Or.inr (Or.inl rfl)⟩
  | .obj [] => exact ⟨'{', _, rfl, Or.inr (Or.inr rfl)⟩
  | .obj ((k, v) :: ms) => exact ⟨'{', _, rfl, Or.inr (Or.inr rfl)⟩
  | .null => simp [TextualJson] at ht
  | .bool b => simp [TextualJson] at ht
  | .num lex => simp [TextualJson] at ht

theorem pv_str (fuel : Nat) (rest : List Char) :
    parseValue (fuel + 1) ('"' :: rest) =
      (parseStringUnits rest).map
        (fun p => (Json.str (String.mk (unitsToChars p.1)), p.2)) := by
  have hs : skipWs ('"' :: rest) = '"' :: rest := skipWs_cons _ _ (by decide)
  rw [parseValue.eq_def]
  simp [hs]

theorem pv_arr (fuel : Nat) (rest : List Char) :
    parseValue (fuel + 1) ('[' :: rest) =
      (match skipWs rest with
        | ']' :: r => some (Json.arr [], r)
        | _ => parseElems fuel rest []) := by
  have hs : skipWs ('[' :: rest) = '[' :: rest := skipWs_cons _ _ (by decide)
  rw [parseValue.eq_def]
  simp [hs]

theorem pv_obj (fuel : Nat) (rest : List Char) :
    parseValue (fuel + 1) ('{' :: rest) =
      (match skipWs rest with
        | '}' :: r => some (Json.obj [], r)
        | _ => parseMembers fuel rest []) := by
  have hs : skipWs ('{' :: rest) = '{' :: rest := skipWs_cons _ _ (by decide)
  rw [parseValue.eq_def]
  simp [hs]

theorem pe_eq (fuel : Nat) (cs : List Char) (acc : List Json) :
    parseElems (fuel + 1) cs acc =
      (parseValue fuel cs).bind fun p =>
        match skipWs p.2 with
        | ',' :: r => parseElems fuel r (acc ++ [p.1])
        | ']' :: r => some (Json.arr (acc ++ [p.1]), r)
        | _ => none := by
  rw [parseElems.eq_def]

theorem pm_quote (fuel : Nat) (rest : List Char) (acc : List (String × Json)) :
    parseMembers (fuel + 1) ('"' :: rest) acc =
      (parseStringUnits rest).bind fun q =>
        match skipWs q.2 with
        | ':' :: r2 =>
          (parseValue fuel r2).bind fun p =>
            match skipWs p.2 with
            | ',' :: r4 =>
              parseMembers fuel r4 (acc ++ [(String.mk (unitsToChars q.1), p.1)])
            | '}' :: r4 =>
              some (Json.obj (acc ++ [(String.mk (unitsToChars q.1), p.1)]), r4)
            | _ => none
        | _ => none := by
  have hs : skipWs ('"' :: rest) = '"' :: rest := skipWs_cons _ _ (by decide)
  rw [parseMembers.eq_def]
  simp [hs]

theorem pv_arr_head (fuel : Nat) (c : Char) (t : List Char)
    (hc : c = '"' ∨ c = '[' ∨ c = '{') :
    parseValue (fuel + 1) ('[' :: (c :: t)) = parseElems fuel (c :: t) [] := by
  rcases hc with rfl | rfl | rfl <;>
    (rw [pv_arr]; rw [skipWs_cons _ _ (by decide)]; rfl)

theorem pv_obj_quote (fuel : Nat) (t : List Char) :
    parseValue (fuel + 1) ('{' :: ('"' :: t)) = parseMembers fuel ('"' :: t) [] := by
  rw [pv_obj]; rw [skipWs_cons _ _ (by decide)]; rfl

theorem parseElems_stringify_aux (n : Nat)
    (VH : ∀ j : Json, sizeOf j ≤ n → TextualJson j = true → ∀ extra rest,
      parseValue (jsonFuel j + extra) (stringifyVal j ++ rest) = some (j, rest)) :
    ∀ (xs : List Json) (x : Json) (acc : List Json) (extra : Nat) (rest : List Char),
      sizeOf x ≤ n → sizeOf xs ≤ n →
      TextualJson x = true → TextualArr xs = true →
      parseElems (1 + jsonFuel x + elemsFuel xs + extra)
        (stringifyVal x ++ (stringifyElems xs ++ rest)) acc =
        some (Json.arr (acc ++ x :: xs), rest) := by
  intro xs
  induction xs with
  | nil =>
    intro x acc extra rest hszx _ htx _
    have hrw : 1 + jsonFuel x + elemsFuel [] + extra = (jsonFuel x + extra) + 1 := by
      simp [elemsFuel]; omega
    rw [hrw, pe_eq]
    rw [show stringifyElems ([] : List Json) = [']'] from rfl]
    simp only [List.singleton_append]
    rw [VH x hszx htx extra (']' :: rest)]
    simp [skipWs_cons _ _ (by decide : isJsonWs ']' = false)]
  | cons y ys ihy =>
    intro x acc extra rest hszx hszxs htx htxs
    have hcons : sizeOf (y :: ys) = 1 + sizeOf y + sizeOf ys := by simp
    have hy : sizeOf y ≤ n := by omega
    have hys : sizeOf ys ≤ n := by omega
    have hty : TextualJson y = true := by
      have := htxs
      simp [TextualArr, Bool.and_eq_true] at this
      exact this.1
    have htys : TextualArr ys = true := by
      have := htxs
      simp [TextualArr, Bool.and_eq_true] at this
      exact this.2
    have hrw : 1 + jsonFuel x + elemsFuel (y :: ys) + extra
        = (jsonFuel x + (elemsFuel (y :: ys) + extra)) + 1 := by omega
    rw [hrw, pe_eq]
    rw [show stringifyElems (y :: ys) = ',' :: (stringifyVal y ++ stringifyElems ys)
      from rfl]
    have hstream :
        stringifyVal x ++ ((',' :: (stringifyVal y ++ stringifyElems ys)) ++ rest) =
        stringifyVal x ++ (',' :: (stringifyVal y ++ (stringifyElems ys ++ rest))) := by
      simp [List.append_assoc]
    rw [hstream, VH x hszx htx _ _]
    simp only [Option.some_bind]
    rw [skipWs_cons _ _ (by decide : isJsonWs ',' = false)]
    have hrw2 : jsonFuel x + (elemsFuel (y :: ys) + extra)
        = 1 + jsonFuel y + elemsFuel ys + (jsonFuel x + extra) := by
      simp [elemsFuel]; omega
    rw [hrw2]
    have hfinal := ihy y (acc ++ [x]) (jsonFuel x + extra) rest hy hys hty htys
    rw [show (acc ++ [x]) ++ y :: ys = acc ++ x :: y :: ys from by simp] at hfinal
    exact hfinal

theorem pm_step (fuel : Nat) (kd t : List Char) (acc : List (String × Json)) :
    parseMembers (fuel + 1) ('"' :: (escapeChars kd ++ ('"' :: (':' :: t)))) acc =
      (parseValue fuel t).bind fun p =>
        match skipWs p.2 with
        | ',' :: r4 =>
          parseMembers fuel r4
            (acc ++ [(String.mk (unitsToChars (kd.map Char.toNat)), p.1)])
        | '}' :: r4 =>
          some (Json.obj
            (acc ++ [(String.mk (unitsToChars (kd.map Char.toNat)), p.1)]), r4)
        | _ => none := by
  rw [pm_quote, parseStringUnits_escape]
  simp only [Option.some_bind]
  rw [skipWs_cons _ _ (by decide : isJsonWs ':' = false)]
  rfl

theorem parseMembers_stringify_aux (n : Nat)
    (VH : ∀ j : Json, sizeOf j ≤ n → TextualJson j = true → ∀ extra rest,
      parseValue (jsonFuel j + extra) (stringifyVal j ++ rest) = some (j, rest)) :
    ∀ (ms : List (String × Json)) (k : String) (v : Json)
      (acc : List (String × Json)) (extra : Nat) (rest : List Char),
      sizeOf v ≤ n → sizeOf ms ≤ n →
      TextualJson v = true → TextualObj ms = true →
      parseMembers (1 + jsonFuel v + membersFuel ms + extra)
        ('"' :: (escapeChars k.data ++
          ('"' :: (':' :: (stringifyVal v ++ (stringifyMembers ms ++ rest)))))) acc =
        some (Json.obj (acc ++ (k, v) :: ms), rest) := by
  intro ms
  induction ms with
  | nil =>
    intro k v acc extra rest hszv _ htv _
    have hrw : 1 + jsonFuel v + membersFuel [] + extra = (jsonFuel v + extra) + 1 := by
      simp [membersFuel]; omega
    rw [hrw, pm_step, VH v hszv htv extra _]
    simp only [Option.some_bind, unitsToChars_map_toNat]
    rw [show stringifyMembers ([] : List (String × Json)) ++ rest = '}' :: rest from rfl]
    rw [skipWs_cons _ _ (by decide : isJsonWs '}' = false)]
    rfl
  | cons m ms2 ihm =>
    obtain ⟨k2, v2⟩ := m
    intro k v acc extra rest hszv hszms htv htms
    have hcons : sizeOf ((k2, v2) :: ms2) = 1 + (1 + sizeOf k2 + sizeOf v2) + sizeOf ms2 := by
      simp
    have hv2 : sizeOf v2 ≤ n := by omega
    have hms2 : sizeOf ms2 ≤ n := by omega
    have htv2 : TextualJson v2 = true := by
      have := htms
      simp [TextualObj, Bool.and_eq_true] at this
      exact this.1
    have htms2 : TextualObj ms2 = true := by
      have := htms
      simp [TextualObj, Bool.and_eq_true] at this
      exact this.2
    have hrw : 1 + jsonFuel v + membersFuel ((k2, v2) :: ms2) + extra
        = (jsonFuel v + (membersFuel ((k2, v2) :: ms2) + extra)) + 1 := by omega
    rw [hrw, pm_step, VH v hszv htv _ _]
    simp only [Option.some_bind, unitsToChars_map_toNat]
    rw [show stringifyMembers ((k2, v2) :: ms2) ++ rest =
      ',' :: ('"' :: (escapeChars k2.data ++
        ('"' :: (':' :: (stringifyVal v2 ++ (stringifyMembers ms2 ++ rest))))))
      from by simp [stringifyMembers, stringifyString, List.append_assoc]]
    rw [skipWs_cons _ _ (by decide : isJsonWs ',' = false)]
    have hrw2 : jsonFuel v + (membersFuel ((k2, v2) :: ms2) + extra)
        = 1 + jsonFuel v2 + membersFuel ms2 + (jsonFuel v + extra) := by
      simp [membersFuel]; omega
    rw [hrw2]
    have hfinal := ihm k2 v2 (acc ++ [(k, v)]) (jsonFuel v + extra) rest hv2 hms2 htv2 htms2
    rw [show (acc ++ [(k, v)]) ++ (k2, v2) :: ms2 = acc ++ (k, v) :: (k2, v2) :: ms2
      from by simp] at hfinal
    exact hfinal

theorem parseValue_stringify :
    ∀ (n : Nat) (j : Json), sizeOf j ≤ n → TextualJson j = true →
      ∀ (extra : Nat) (rest : List Char),
        parseValue (jsonFuel j + extra) (stringifyVal j ++ rest) = some (j, rest) := by
  intro n
  induction n with
  | zero =>
    intro j hsz
    exact absurd hsz (by cases j <;> simp)
  | succ n ih =>
    intro j hsz ht extra rest
    match j, ht with
    | .str s, _ =>
      have h1 : jsonFuel (.str s) + extra = extra + 1 := by simp [jsonFuel]; omega
      rw [h1]
      rw [show stringifyVal (.str s) ++ rest =
        '"' :: (escapeChars s.data ++ ('"' :: rest)) from by
          simp [stringifyVal, stringifyString]]
      rw [pv_str, parseStringUnits_escape]
      simp [unitsToChars_map_toNat]
    | .arr [], _ =>
      have h1 : jsonFuel (.arr []) + extra = extra + 1 := by
        simp [jsonFuel, elemsFuel]; omega
      rw [h1]
      rw [show stringifyVal (.arr []) ++ rest = '[' :: (']' :: rest) from rfl]
      rw [pv_arr]
      rw [skipWs_cons _ _ (by decide : isJsonWs ']' = false)]
      rfl
    | .arr (x :: xs), ht =>
      have hszx : sizeOf x ≤ n := by
        have : sizeOf (Json.arr (x :: xs)) = 1 + (1 + sizeOf x + sizeOf xs) := by simp
        omega
      have hszxs : sizeOf xs ≤ n := by
        have : sizeOf (Json.arr (x :: xs)) = 1 + (1 + sizeOf x + sizeOf xs) := by simp
        omega
      have htx : TextualJson x = true := by
        have := ht
        simp [TextualJson, TextualArr, Bool.and_eq_true] at this
        exact this.1
      have htxs : TextualArr xs = true := by
        have := ht
        simp [TextualJson, TextualArr, Bool.and_eq_true] at this
        exact this.2
      have h1 : jsonFuel (.arr (x :: xs)) + extra
          = (1 + jsonFuel x + elemsFuel xs + extra) + 1 := by
        simp [jsonFuel, elemsFuel]; omega
      rw [h1]
      rw [show stringifyVal (.arr (x :: xs)) ++ rest =
        '[' :: (stringifyVal x ++ (stringifyElems xs ++ rest)) from by
          simp [stringifyVal, List.append_assoc]]
      obtain ⟨c, cs0, hcs, hc3⟩ := stringify_head x htx
      rw [show stringifyVal x ++ (stringifyElems xs ++ rest) =
        c :: (cs0 ++ (stringifyElems xs ++ rest)) from by rw [hcs]; simp]
      rw [pv_arr_head _ _ _ hc3]
      rw [show c :: (cs0 ++ (stringifyElems xs ++ rest)) =
        stringifyVal x ++ (stringifyElems xs ++ rest) from by rw [hcs]; simp]
      have := parseElems_stringify_aux n (fun j hs htj => ih j hs htj)
        xs x [] extra rest hszx hszxs htx htxs
      simpa using this
    | .obj [], _ =>
      have h1 : jsonFuel (.obj []) + extra = extra + 1 := by
        simp [jsonFuel, membersFuel]; omega
      rw [h1]
      rw [show stringifyVal (.obj []) ++ rest = '{' :: ('}' :: rest) from rfl]
      rw [pv_obj]
      rw [skipWs_cons _ _ (by decide : isJsonWs '}' = false)]
      rfl
    | .obj ((k, v) :: ms), ht =>
      have hszkv : sizeOf (Json.obj ((k, v) :: ms))
          = 1 + (1 + (1 + sizeOf k + sizeOf v) + sizeOf ms) := by simp
      have hszv : sizeOf v ≤ n := by omega
      have hszms : sizeOf ms ≤ n := by omega
      have htv : TextualJson v = true := by
        have := ht
        simp [TextualJson, TextualObj, Bool.and_eq_true] at this
        exact this.1
      have htms : TextualObj ms = true := by
        have := ht
        simp [TextualJson, TextualObj, Bool.and_eq_true] at this
        exact this.2
      have h1 : jsonFuel (.obj ((k, v) :: ms)) + extra
          = (1 + jsonFuel v + membersFuel ms + extra) + 1 := by
        simp [jsonFuel, membersFuel]; omega
      rw [h1]
      rw [show stringifyVal (.obj ((k, v) :: ms)) ++ rest =
        '{' :: ('"' :: (escapeChars k.data ++
          ('"' :: (':' :: (stringifyVal v ++ (stringifyMembers ms ++ rest)))))) from by
          simp [stringifyVal, stringifyString, List.append_assoc]]
      rw [pv_obj_quote]
      have := parseMembers_stringify_aux n (fun j hs htj => ih j hs htj)
        ms k v [] extra rest hszv hszms htv htms
      simpa using this

theorem jsonFuel_le :
    ∀ (n : Nat) (j : Json), sizeOf j ≤ n → TextualJson j = true →
      jsonFuel j ≤ 2 * (stringifyVal j).length := by
  intro n
  induction n with
  | zero =>
    intro j hsz
    exact absurd hsz (by cases j <;> simp)
  | succ n ih =>
    have elemsLe : ∀ xs : List Json, sizeOf xs ≤ n + 1 → TextualArr xs = true →
        (∀ y ∈ xs, sizeOf y ≤ n) →
        elemsFuel xs ≤ 2 * (stringifyElems xs).length := by
      intro xs
      induction xs with
      | nil => intro _ _ _; simp [elemsFuel, stringifyElems]
      | cons y ys ihy =>
        intro hsz htl hmem
        have h1 := ih y (hmem y (by simp)) (by
          simp [TextualArr, Bool.and_eq_true] at htl; exact htl.1)
        have h2 := ihy (by
          have : sizeOf (y :: ys) = 1 + sizeOf y + sizeOf ys := by simp
          omega)
          (by simp [TextualArr, Bool.and_eq_true] at htl; exact htl.2)
          (fun z hz => hmem z (by simp [hz]))
        simp only [elemsFuel, stringifyElems, List.length_cons, List.length_append]
        omega
    have membersLe : ∀ ms : List (String × Json), sizeOf ms ≤ n + 1 →
        TextualObj ms = true →
        (∀ m ∈ ms, sizeOf m.2 ≤ n) →
        membersFuel ms ≤ 2 * (stringifyMembers ms).length := by
      intro ms
      induction ms with
      | nil => intro _ _ _; simp [membersFuel, stringifyMembers]
      | cons m ms2 ihm =>
        obtain ⟨k, v⟩ := m
        intro hsz htl hmem
        have h1 := ih v (hmem (k, v) (by simp)) (by
          simp [TextualObj, Bool.and_eq_true] at htl; exact htl.1)
        have h2 := ihm (by
          have : sizeOf ((k, v) :: ms2) = 1 + (1 + sizeOf k + sizeOf v) + sizeOf ms2 := by
            simp
          omega)
          (by simp [TextualObj, Bool.and_eq_true] at htl; exact htl.2)
          (fun z hz => hmem z (by simp [hz]))
        simp only [membersFuel, stringifyMembers, List.length_cons, List.length_append]
        omega
    intro j hsz ht
    match j, ht with
    | .str s, _ =>
      simp [jsonFuel, stringifyVal, stringifyString]
      omega
    | .arr xs, ht =>
      have hx : ∀ y ∈ xs, sizeOf y ≤ n := by
        intro y hy
        have h1 : sizeOf y < sizeOf xs := List.sizeOf_lt_of_mem hy
        have h2 : sizeOf (Json.arr xs) = 1 + sizeOf xs := by simp
        omega
      have hxs : sizeOf xs ≤ n + 1 := by
        have h2 : sizeOf (Json.arr xs) = 1 + sizeOf xs := by simp
        omega
      have htl : TextualArr xs = true := by simpa [TextualJson] using ht
      match xs with
      | [] => simp [jsonFuel, elemsFuel, stringifyVal]
      | x :: xs2 =>
        have h1 := ih x (hx x (by simp)) (by
          simp [TextualArr, Bool.and_eq_true] at htl; exact htl.1)
        have h2 := elemsLe xs2 (by
          have : sizeOf (x :: xs2) = 1 + sizeOf x + sizeOf xs2 := by simp
          omega)
          (by simp [TextualArr, Bool.and_eq_true] at htl; exact htl.2)
          (fun z hz => hx z (by simp [hz]))
        simp only [jsonFuel, elemsFuel, stringifyVal, List.length_cons,
          List.length_append]
        omega
    | .obj ms, ht =>
      have hx : ∀ m ∈ ms, sizeOf m.2 ≤ n := by
        intro m hm
        have h1 : sizeOf m < sizeOf ms := List.sizeOf_lt_of_mem hm
        have h2 : sizeOf (Json.obj ms) = 1 + sizeOf ms := by simp
        have h3 : sizeOf m.2 < sizeOf m := by
          obtain ⟨a, b⟩ := m
          simp
        omega
      have hms : sizeOf ms ≤ n + 1 := by
        have h2 : sizeOf (Json.obj ms) = 1 + sizeOf ms := by simp
        omega
      have htl : TextualObj ms = true := by simpa [TextualJson] using ht
      match ms with
      | [] => simp [jsonFuel, membersFuel, stringifyVal]
      | (k, v) :: ms2 =>
        have h1 := ih v (hx (k, v) (by simp)) (by
          simp [TextualObj, Bool.and_eq_true] at htl; exact htl.1)
        have h2 := membersLe ms2 (by
          have : sizeOf ((k, v) :: ms2) = 1 + (1 + sizeOf k + sizeOf v) + sizeOf ms2 := by
            simp
          omega)
          (by simp [TextualObj, Bool.and_eq_true] at htl; exact htl.2)
          (fun z hz => hx z (by simp [hz]))
        simp only [jsonFuel, membersFuel, stringifyVal, stringifyString,
          List.length_cons, List.length_append]
        omega

theorem jsonParse_stringify (j : Json) (ht : TextualJson j = true) :
    jsonParse (jsonStringify j) = some j := by
  unfold jsonParse jsonStringify
  have hlen : jsonFuel j ≤ 2 * (stringifyVal j).length + 2 := by
    have := jsonFuel_le (sizeOf j) j le_rfl ht
    omega
  rw [show (String.mk (stringifyVal j)).data = stringifyVal j from rfl]
  have h1 : 2 * (stringifyVal j).length + 2
      = jsonFuel j + (2 * (stringifyVal j).length + 2 - jsonFuel j) := by omega
  rw [h1]
  have h2 := parseValue_stringify (sizeOf j) j le_rfl ht
    (2 * (stringifyVal j).length + 2 - jsonFuel j) []
  rw [show stringifyVal j ++ [] = stringifyVal j from by simp] at h2
  rw [h2]
  rfl

/-! ## Latin-1 preservation through serialization -/

mutual

/-- All string content in the value is Latin-1. -/
def JsonLatin1 : Json → Bool
  | .null => true
  | .bool _ => true
  | .num lex => latin1Str lex
  | .str s => latin1Str s
  | .arr xs => JsonLatin1Arr xs
  | .obj ms => JsonLatin1Obj ms
  termination_by structural j => j

/-- Latin-1 element lists. -/
def JsonLatin1Arr : List Json → Bool
  | [] => true
  | x :: xs => JsonLatin1 x && JsonLatin1Arr xs
  termination_by structural xs => xs

/-- Latin-1 member lists. -/
def JsonLatin1Obj : List (String × Json) → Bool
  | [] => true
  | (k, v) :: ms => latin1Str k && JsonLatin1 v && JsonLatin1Obj ms
  termination_by structural ms => ms

end

theorem hexDigitLower_latin1 : ∀ n < 16, (hexDigitLower n).toNat < 256 := by decide

theorem escapeChar_latin1 (c : Char) (h : c.toNat < 256) :
    ∀ d ∈ escapeChar c, d.toNat < 256 := by
  by_cases h1 : c = '"'
  · subst h1; exact by decide
  by_cases h2 : c = '\\'
  · subst h2; exact by decide
  by_cases h3 : c = '\x08'
  · subst h3; exact by decide
  by_cases h4 : c = '\t'
  · subst h4; exact by decide
  by_cases h5 : c = '\n'
  · subst h5; exact by decide
  by_cases h6 : c = '\x0c'
  · subst h6; exact by decide
  by_cases h7 : c = '\r'
  · subst h7; exact by decide
  by_cases h8 : c.toNat < 32
  · rw [show escapeChar c = ['\\', 'u', '0', '0', hexDigitLower (c.toNat / 16),
      hexDigitLower (c.toNat % 16)] from by
        simp [escapeChar, h1, h2, h3, h4, h5, h6, h7, h8]]
    refine List.forall_mem_cons.mpr ⟨by decide, ?_⟩
    refine List.forall_mem_cons.mpr ⟨by decide, ?_⟩
    refine List.forall_mem_cons.mpr ⟨by decide, ?_⟩
    refine List.forall_mem_cons.mpr ⟨by decide, ?_⟩
    refine List.forall_mem_cons.mpr ⟨hexDigitLower_latin1 _ (by omega), ?_⟩
    refine List.forall_mem_cons.mpr ⟨hexDigitLower_latin1 _ (by omega), ?_⟩
    intro d hd
    simp at hd
  · rw [show escapeChar c = [c] from by
      simp [escapeChar, h1, h2, h3, h4, h5, h6, h7, h8]]
    refine List.forall_mem_cons.mpr ⟨h, ?_⟩
    intro d hd
    simp at hd

theorem escapeChars_latin1 (cs : List Char) (h : ∀ c ∈ cs, c.toNat < 256) :
    ∀ d ∈ escapeChars cs, d.toNat < 256 := by
  induction cs with
  | nil => intro d hd; simp [escapeChars] at hd
  | cons c rest ih =>
    rw [show escapeChars (c :: rest) = escapeChar c ++ escapeChars rest from rfl]
    exact List.forall_mem_append.mpr
      ⟨escapeChar_latin1 c (h c (by simp)),
       ih (fun x hx => h x (by simp [hx]))⟩

theorem stringifyString_latin1 (s : String) (h : latin1Str s = true) :
    ∀ d ∈ stringifyString s, d.toNat < 256 := by
  rw [show stringifyString s = '"' :: (escapeChars s.data ++ ['"']) from rfl]
  refine List.forall_mem_cons.mpr ⟨by decide, ?_⟩
  refine List.forall_mem_append.mpr
    ⟨escapeChars_latin1 s.data (by simpa [latin1Str] using h), ?_⟩
  exact by decide

theorem stringify_latin1 :
    ∀ (n : Nat) (j : Json), sizeOf j ≤ n → JsonLatin1 j = true →
      ∀ d ∈ stringifyVal j, d.toNat < 256 := by
  intro n
  induction n with
  | zero =>
    intro j hsz
    exact absurd hsz (by cases j <;> simp)
  | succ n ih =>
    have elemsL : ∀ xs : List Json, JsonLatin1Arr xs = true →
        (∀ y ∈ xs, sizeOf y ≤ n) → ∀ d ∈ stringifyElems xs, d.toNat < 256 := by
      intro xs
      induction xs with
      | nil => intro _ _; exact by decide
      | cons y ys ihy =>
        intro hl hmem
        simp only [JsonLatin1Arr, Bool.and_eq_true] at hl
        rw [show stringifyElems (y :: ys) = ',' :: (stringifyVal y ++ stringifyElems ys)
          from rfl]
        refine List.forall_mem_cons.mpr ⟨by decide, ?_⟩
        exact List.forall_mem_append.mpr
          ⟨ih y (hmem y (by simp)) hl.1,
           ihy hl.2 (fun z hz => hmem z (by simp [hz]))⟩
    have membersL : ∀ ms : List (String × Json), JsonLatin1Obj ms = true →
        (∀ m ∈ ms, sizeOf m.2 ≤ n) → ∀ d ∈ stringifyMembers ms, d.toNat < 256 := by
      intro ms
      induction ms with
      | nil => intro _ _; exact by decide
      | cons m ms2 ihm =>
        obtain ⟨k, v⟩ := m
        intro hl hmem
        simp only [JsonLatin1Obj, Bool.and_eq_true] at hl
        rw [show stringifyMembers ((k, v) :: ms2) =
          ',' :: (stringifyString k ++ (':' :: stringifyVal v) ++ stringifyMembers ms2)
          from rfl]
        refine List.forall_mem_cons.mpr ⟨by decide, ?_⟩
        refine List.forall_mem_append.mpr ⟨List.forall_mem_append.mpr
          ⟨stringifyString_latin1 k hl.1.1, ?_⟩, ?_⟩
        · exact List.forall_mem_cons.mpr ⟨by decide, ih v (hmem (k, v) (by simp)) hl.1.2⟩
        · exact ihm hl.2 (fun z hz => hmem z (by simp [hz]))
    intro j hsz hl
    match j, hl with
    | .null, _ => exact by decide
    | .bool true, _ => exact by decide
    | .bool false, _ => exact by decide
    | .num lex, hl =>
      intro d hd
      simp only [stringifyVal] at hd
      have hall : ∀ c ∈ lex.data, c.toNat < 256 := by
        simpa [latin1Str, JsonLatin1] using hl
      exact hall d hd
    | .str s, hl =>
      exact stringifyString_latin1 s (by simpa [JsonLatin1] using hl)
    | .arr [], _ => exact by decide
    | .arr (x :: xs), hl =>
      have hx : ∀ y ∈ x :: xs, sizeOf y ≤ n := by
        intro y hy
        have hlt : sizeOf y < sizeOf (x :: xs) := List.sizeOf_lt_of_mem hy
        have heq : sizeOf (Json.arr (x :: xs)) = 1 + sizeOf (x :: xs) := by simp
        omega
      have hl2 : JsonLatin1 x = true ∧ JsonLatin1Arr xs = true := by
        simpa [JsonLatin1, JsonLatin1Arr, Bool.and_eq_true] using hl
      rw [show stringifyVal (.arr (x :: xs)) =
        '[' :: (stringifyVal x ++ stringifyElems xs) from rfl]
      refine List.forall_mem_cons.mpr ⟨by decide, ?_⟩
      exact List.forall_mem_append.mpr
        ⟨ih x (hx x (by simp)) hl2.1,
         elemsL xs hl2.2 (fun z hz => hx z (by simp [hz]))⟩
    | .obj [], _ => exact by decide
    | .obj ((k, v) :: ms), hl =>
      have hx : ∀ m ∈ (k, v) :: ms, sizeOf m.2 ≤ n := by
        intro m hm
        have hlt : sizeOf m < sizeOf ((k, v) :: ms) := List.sizeOf_lt_of_mem hm
        have heq : sizeOf (Json.obj ((k, v) :: ms)) = 1 + sizeOf ((k, v) :: ms) := by
          simp
        have h3 : sizeOf m.2 < sizeOf m := by
          obtain ⟨a, b⟩ := m
          simp
        omega
      have hl2 : latin1Str k = true ∧ JsonLatin1 v = true ∧ JsonLatin1Obj ms = true := by
        have := hl
        simp only [JsonLatin1, JsonLatin1Obj, Bool.and_eq_true] at this
        exact ⟨this.1.1, this.1.2, this.2⟩
      rw [show stringifyVal (.obj ((k, v) :: ms)) =
        '{' :: (stringifyString k ++ (':' :: stringifyVal v) ++ stringifyMembers ms)
        from rfl]
      refine List.forall_mem_cons.mpr ⟨by decide, ?_⟩
      refine List.forall_mem_append.mpr ⟨List.forall_mem_append.mpr
        ⟨stringifyString_latin1 k hl2.1, ?_⟩, ?_⟩
      · exact List.forall_mem_cons.mpr ⟨by decide, ih v (hx (k, v) (by simp)) hl2.2.1⟩
      · exact membersL ms hl2.2.2 (fun z hz => hx z (by simp [hz]))

/-! ## Payload serialization bridge -/

theorem TextualObj_append (a b : List (String × Json)) :
    TextualObj (a ++ b) = (TextualObj a && TextualObj b) := by
  induction a with
  | nil => simp [TextualObj]
  | cons m ms ih =>
    obtain ⟨k, v⟩ := m
    simp [TextualObj, ih, Bool.and_assoc]

theorem JsonLatin1Obj_append (a b : List (String × Json)) :
    JsonLatin1Obj (a ++ b) = (JsonLatin1Obj a && JsonLatin1Obj b) := by
  induction a with
  | nil => simp [JsonLatin1Obj]
  | cons m ms ih =>
    obtain ⟨k, v⟩ := m
    simp [JsonLatin1Obj, ih, Bool.and_assoc]

theorem TextualArr_map_linkItem (ls : List LinkItem) :
    TextualArr (ls.map linkItemToJson) = true := by
  induction ls with
  | nil => rfl
  | cons l rest ih =>
    rw [show (l :: rest).map linkItemToJson
      = linkItemToJson l :: rest.map linkItemToJson from rfl]
    rw [show ∀ x xs, TextualArr (x :: xs) = (TextualJson x && TextualArr xs)
      from fun x xs => rfl]
    rw [ih]
    simp [linkItemToJson, TextualJson, TextualObj]

theorem payloadTextual (p : LinkPayload) : TextualJson (payloadToJson p) = true := by
  unfold payloadToJson
  rw [show ∀ L, TextualJson (Json.obj L) = TextualObj L from fun L => rfl]
  rw [TextualObj_append, TextualObj_append, TextualObj_append, TextualObj_append]
  simp only [Bool.and_eq_true]
  refine ⟨⟨⟨⟨?_, ?_⟩, ?_⟩, ?_⟩, ?_⟩
  · cases p.mode <;> rfl
  · cases p.url <;> rfl
  · cases p.title <;> rfl
  · cases p.profileName <;> rfl
  · cases hl : p.links with
    | none => rfl
    | some ls =>
      rw [show TextualObj [("links", Json.arr (ls.map linkItemToJson))]
        = TextualArr (ls.map linkItemToJson) from by
          simp [TextualObj, TextualJson]]
      exact TextualArr_map_linkItem ls

theorem JsonLatin1Arr_map_linkItem (ls : List LinkItem)
    (h : ls.all (fun l => latin1Str l.title && latin1Str l.url) = true) :
    JsonLatin1Arr (ls.map linkItemToJson) = true := by
  induction ls with
  | nil => rfl
  | cons l rest ih =>
    simp only [List.all_cons, Bool.and_eq_true] at h
    rw [show (l :: rest).map linkItemToJson
      = linkItemToJson l :: rest.map linkItemToJson from rfl]
    rw [show ∀ x xs, JsonLatin1Arr (x :: xs) = (JsonLatin1 x && JsonLatin1Arr xs)
      from fun x xs => rfl]
    rw [ih h.2]
    have h1 := h.1
    simp only [Bool.and_eq_true] at h1
    simp [linkItemToJson, JsonLatin1, JsonLatin1Obj, h1.1, h1.2]
    constructor <;> decide

theorem payloadJsonLatin1 (p : LinkPayload) (h : payloadLatin1 p = true) :
    JsonLatin1 (payloadToJson p) = true := by
  unfold payloadLatin1 at h
  simp only [Bool.and_eq_true] at h
  unfold payloadToJson
  rw [show ∀ L, JsonLatin1 (Json.obj L) = JsonLatin1Obj L from fun L => rfl]
  rw [JsonLatin1Obj_append, JsonLatin1Obj_append, JsonLatin1Obj_append,
    JsonLatin1Obj_append]
  simp only [Bool.and_eq_true]
  refine ⟨⟨⟨⟨?_, ?_⟩, ?_⟩, ?_⟩, ?_⟩
  · cases p.mode <;> decide
  · cases hu : p.url with
    | none => rfl
    | some u =>
      have := h.1.1.1
      rw [hu] at this
      have hv : latin1Str u = true := by simpa using this
      simp [JsonLatin1Obj, JsonLatin1, hv,
        show latin1Str "url" = true from by decide]
  · cases ht : p.title with
    | none => rfl
    | some t =>
      have := h.1.1.2
      rw [ht] at this
      have hv : latin1Str t = true := by simpa using this
      simp [JsonLatin1Obj, JsonLatin1, hv,
        show latin1Str "title" = true from by decide]
  · cases hn : p.profileName with
    | none => rfl
    | some nm =>
      have := h.1.2
      rw [hn] at this
      have hv : latin1Str nm = true := by simpa using this
      simp [JsonLatin1Obj, JsonLatin1, hv,
        show latin1Str "profileName" = true from by decide]
  · cases hl : p.links with
    | none => rfl
    | some ls =>
      have := h.2
      rw [hl] at this
      rw [show JsonLatin1Obj [("links", Json.arr (ls.map linkItemToJson))]
        = JsonLatin1Arr (ls.map linkItemToJson) from by
          simp [JsonLatin1Obj, JsonLatin1, latin1Str]]
      exact JsonLatin1Arr_map_linkItem ls this

theorem stringify_payload_latin1 (p : LinkPayload) (h : payloadLatin1 p = true) :
    (jsonStringify (payloadToJson p)).data.all (fun c => c.toNat < 256) = true := by
  rw [show (jsonStringify (payloadToJson p)).data = stringifyVal (payloadToJson p)
    from rfl]
  rw [List.all_eq_true]
  intro c hc
  have := stringify_latin1 (sizeOf (payloadToJson p)) (payloadToJson p) le_rfl
    (payloadJsonLatin1 p h) c hc
  simpa using this

theorem btoa_stringify (p : LinkPayload) (h : payloadLatin1 p = true) :
    btoaStr (jsonStringify (payloadToJson p)) = some (encodePayload p) := by
  have hall := stringify_payload_latin1 p h
  unfold encodePayload
  rw [show btoaStr (jsonStringify (payloadToJson p))
    = some (String.mk (b64EncodeBytes
        ((jsonStringify (payloadToJson p)).data.map Char.toNat))) from by
      unfold btoaStr
      rw [if_pos hall]]

theorem payloadToJson_head (p : LinkPayload) :
    ∃ ms, payloadToJson p = Json.obj (("mode",
      Json.str (match p.mode with | .direct => "direct" | .bio => "bio")) :: ms) := by
  unfold payloadToJson
  exact ⟨_, rfl⟩

theorem encodePayload_ne_empty (p : LinkPayload) (h : payloadLatin1 p = true) :
    encodePayload p ≠ "" := by
  have hb := btoa_stringify p h
  unfold btoaStr at hb
  rw [if_pos (stringify_payload_latin1 p h)] at hb
  rw [Option.some_inj] at hb
  obtain ⟨ms, hms⟩ := payloadToJson_head p
  have hhead : ∃ t, (jsonStringify (payloadToJson p)).data = '{' :: t := by
    rw [hms]
    exact ⟨_, rfl⟩
  obtain ⟨t, ht⟩ := hhead
  intro hempty
  rw [← hb] at hempty
  have : (String.mk (b64EncodeBytes
      ((jsonStringify (payloadToJson p)).data.map Char.toNat))).data = [] := by
    rw [hempty]
  rw [show (String.mk (b64EncodeBytes
      ((jsonStringify (payloadToJson p)).data.map Char.toNat))).data
    = b64EncodeBytes ((jsonStringify (payloadToJson p)).data.map Char.toNat)
    from rfl] at this
  rw [ht] at this
  cases t with
  | nil => simp [b64EncodeBytes] at this
  | cons c2 t2 =>
    cases t2 with
    | nil => simp [b64EncodeBytes] at this
    | cons c3 t3 => simp [b64EncodeBytes] at this

theorem decodePayload_encodePayload (p : LinkPayload) (h : payloadLatin1 p = true) :
    decodePayload (encodePayload p) = payloadToJson p := by
  have hb := btoa_stringify p h
  have ha := atobStr_btoaStr _ _ hb
  have hp := jsonParse_stringify (payloadToJson p) (payloadTextual p)
  unfold decodePayload
  rw [if_neg (encodePayload_ne_empty p h)]
  rw [ha]
  simp only [Option.some_bind]
  rw [hp]

/-- The non-Latin-1 direct descriptor (URL contains U+03B1) used as the
encode-failure example. -/
def alphaPayload : LinkPayload := { mode := .direct, url := some "https://α.example" }

/-- The scenario-A direct descriptor. -/
def samplePayload : LinkPayload :=
  { mode := .direct, url := some "https://example.com", title := some "Content" }

/-! ## Claim C3: the encode/decode round trip -/

/-- C3, counterexample: a valid descriptor whose URL contains a character
above U+00FF (here `α`) does not round-trip — `btoa` fails, `encodePayload`
returns the empty string, and decoding that yields the failure value, not the
descriptor. -/
theorem C3_counterexample :
    validDescriptor alphaPayload = true ∧
    encodePayload alphaPayload = "" ∧
    decodePayload (encodePayload alphaPayload) = Json.null ∧
    Json.null ≠ payloadToJson alphaPayload := by
  decide

/-- C3, amended: for every valid descriptor whose string fields are Latin-1
(all code points at most U+00FF), decoding the encoded token returns exactly
the JSON value the descriptor serializes to; the restriction is forced by
`btoa`, which throws on any character above U+00FF. -/
theorem C3_amended_roundtrip (p : LinkPayload)
    (hv : validDescriptor p = true) (hl : payloadLatin1 p = true) :
    decodePayload (encodePayload p) = payloadToJson p :=
  decodePayload_encodePayload p hl

/-- C3, witness at a concrete valid Latin-1 descriptor. -/
theorem C3_amended_roundtrip_witness :
    validDescriptor samplePayload = true ∧
    payloadLatin1 samplePayload = true ∧
    decodePayload (encodePayload samplePayload) = payloadToJson samplePayload :=
  ⟨by decide, by decide, C3_amended_roundtrip samplePayload (by decide) (by decide)⟩

/-! ## Claim C9: the shareable address on encode failure -/

/-- C9, counterexample: when encoding fails (a descriptor with a character
above U+00FF), `generateParaLink` does not return the empty string — it
returns the address with an empty token after `p=`. -/
theorem C9_counterexample :
    encodePayload alphaPayload = "" ∧
    generateParaLink "https://para.link" alphaPayload = "https://para.link/#/go?p=" ∧
    generateParaLink "https://para.link" alphaPayload ≠ "" := by
  decide

/-- C9, amended: `generateParaLink` always returns
`origin ++ "/#/go?p=" ++ token`.  For a Latin-1 payload the token is
non-empty, so the full shareable address carries a non-empty token; when
encoding fails the token is empty and the returned address ends in `p=` —
it is never the empty string for a non-empty origin prefix. -/
theorem C9_amended_address_shape (origin : String) (p : LinkPayload)
    (hl : payloadLatin1 p = true) :
    generateParaLink origin p = origin ++ "/#/go?p=" ++ encodePayload p ∧
    encodePayload p ≠ "" :=
  ⟨rfl, encodePayload_ne_empty p hl⟩

/-- C9, witness for the amended theorem. -/
theorem C9_amended_address_shape_witness :
    payloadLatin1 samplePayload = true ∧
    (generateParaLink "https://para.link" samplePayload =
      "https://para.link" ++ "/#/go?p=" ++ encodePayload samplePayload ∧
     encodePayload samplePayload ≠ "") :=
  ⟨by decide, C9_amended_address_shape "https://para.link" samplePayload (by decide)⟩

/-! ## Decode-failure lemmas and claims C7, C10 -/

theorem atobStr_none_of_pct (s : String) (h : '%' ∈ s.data) : atobStr s = none := by
  have hmem : '%' ∈ s.data.filter (fun c => ¬ isB64Ws c) := by
    rw [List.mem_filter]
    exact ⟨h, by decide⟩
  unfold atobStr
  rw [b64DecodeQuads_bad _ '%' hmem (by decide) (by decide)]
  rfl

theorem atob_some_no_pct (s t : String) (h : atobStr s = some t) : '%' ∉ s.data := by
  intro hmem
  rw [atobStr_none_of_pct s hmem] at h
  exact Option.noConfusion h

theorem pctUnits_no_pct (cs : List Char) (h : '%' ∉ cs) :
    pctUnits cs = some (cs.map Sum.inl) := by
  induction cs with
  | nil => rfl
  | cons c rest ih =>
    have hc : ¬ c = '%' := fun hc => h (by simp [hc])
    have hr : '%' ∉ rest := fun hr => h (by simp [hr])
    rw [pctUnits.eq_def]
    simp [hc, ih hr]

theorem decodeUnits_inl_cons (fuel : Nat) (c : Char) (us : List (Char ⊕ Nat)) :
    decodeUnits (fuel + 1) (Sum.inl c :: us)
      = (decodeUnits fuel us).map (fun cs => c :: cs) := rfl

theorem decodeUnits_inl (cs : List Char) :
    ∀ fuel, cs.length < fuel → decodeUnits fuel (cs.map Sum.inl) = some cs := by
  induction cs with
  | nil =>
    intro fuel hf
    cases fuel with
    | zero => omega
    | succ f => rfl
  | cons c rest ih =>
    intro fuel hf
    cases fuel with
    | zero => omega
    | succ f =>
      rw [List.map_cons, decodeUnits_inl_cons, ih f (by simpa using hf)]
      rfl

theorem decodeURIComponent_no_pct (s : String) (h : '%' ∉ s.data) :
    decodeURIComponentStr s = some s := by
  unfold decodeURIComponentStr
  rw [pctUnits_no_pct s.data h]
  rw [Option.some_bind]
  rw [decodeUnits_inl s.data ((s.data.map Sum.inl).length + 1) (by simp)]
  rfl

/-- C7: decode failures.  The empty string, any string rejected by both the
direct base64 attempt and the percent-decode retry, and any valid base64
whose decoded text is not valid JSON, all yield the failure value `null`;
the function is total, so no unhandled error can escape. -/
theorem C7_decode_rejection :
    decodePayload "" = Json.null ∧
    (∀ s : String, atobStr s = none →
      ((decodeURIComponentStr s).bind atobStr) = none →
      decodePayload s = Json.null) ∧
    (∀ s txt : String, atobStr s = some txt → jsonParse txt = none →
      decodePayload s = Json.null) := by
  refine ⟨rfl, ?_, ?_⟩
  · intro s h1 h2
    by_cases hs : s = ""
    · subst hs; rfl
    · unfold decodePayload
      rw [if_neg hs, h1]
      simp only [Option.none_bind]
      rw [show ((decodeURIComponentStr s).bind atobStr).bind
        (fun txt => jsonParse txt) = none from by rw [h2]; rfl]
  · intro s txt h1 h2
    by_cases hs : s = ""
    · subst hs; rfl
    · have hnpct : '%' ∉ s.data := atob_some_no_pct s txt h1
      unfold decodePayload
      rw [if_neg hs, h1]
      simp only [Option.some_bind]
      rw [h2]
      rw [show ((decodeURIComponentStr s).bind atobStr).bind
        (fun txt => jsonParse txt) = none from by
          rw [decodeURIComponent_no_pct s hnpct]
          simp only [Option.some_bind]
          rw [h1]
          simp only [Option.some_bind]
          rw [h2]]

/-- C7, witness: a representative of each category. -/
theorem C7_decode_rejection_witness :
    (atobStr "!!!" = none ∧ (decodeURIComponentStr "!!!").bind atobStr = none ∧
      decodePayload "!!!" = Json.null) ∧
    (atobStr "bm90IGpzb24=" = some "not json" ∧ jsonParse "not json" = none ∧
      decodePayload "bm90IGpzb24=" = Json.null) :=
  ⟨⟨by decide, by decide,
     C7_decode_rejection.2.1 "!!!" (by decide) (by decide)⟩,
   ⟨by decide, by decide,
     C7_decode_rejection.2.2 "bm90IGpzb24=" "not json" (by decide) (by decide)⟩⟩

/-- C10: `decodePayload` returns the parsed JSON value unchanged whenever the
direct base64 and JSON steps succeed — it performs no shape validation of its
own — and the token for the JSON text `null` decodes to the value `null`,
which is the same value the function returns on failure (here, on the empty
string), so success on that token is indistinguishable from failure at the
function's interface. -/
theorem C10_no_shape_validation :
    (∀ (s txt : String) (j : Json), atobStr s = some txt →
      jsonParse txt = some j → decodePayload s = j) ∧
    atobStr "bnVsbA==" = some "null" ∧
    jsonParse "null" = some Json.null ∧
    decodePayload "bnVsbA==" = Json.null ∧
    decodePayload "" = Json.null := by
  refine ⟨?_, by decide, by decide, by decide, rfl⟩
  intro s txt j h1 h2
  by_cases hs : s = ""
  · subst hs
    have htxt : txt = "" := by
      have : atobStr "" = some "" := by decide
      rw [this] at h1
      exact (Option.some_inj.mp h1).symm
    subst htxt
    rw [show jsonParse "" = none from rfl] at h2
    exact Option.noConfusion h2
  · unfold decodePayload
    rw [if_neg hs, h1]
    simp only [Option.some_bind]
    rw [h2]

/-- C10, witness: a non-object JSON value (the boolean `true`) is returned
unchanged. -/
theorem C10_no_shape_validation_witness :
    atobStr "dHJ1ZQ==" = some "true" ∧ jsonParse "true" = some (Json.bool true) ∧
    decodePayload "dHJ1ZQ==" = Json.bool true :=
  ⟨by decide, by decide,
    C10_no_shape_validation.1 "dHJ1ZQ==" "true" (Json.bool true)
      (by decide) (by decide)⟩

/-! ## Claim C4: percent-encoding tolerance of `decodePayload`

`decodePayload` percent-decodes at most once (a single
`decodeURIComponent` retry), so a once-percent-encoded token always
decodes, but a twice-percent-encoded token decodes only when
`encodeURIComponent` left the token unchanged. -/

theorem b64Encode_chars :
    ∀ bs : List Nat, (∀ b ∈ bs, b < 256) →
      ∀ c ∈ b64EncodeBytes bs, c = '=' ∨ ∃ n, n < 64 ∧ c = sixToChar n := by
  intro bs h
  induction bs using b64EncodeBytes.induct with
  | case1 => intro c hc; simp [b64EncodeBytes] at hc
  | case2 a =>
    have ha : a < 256 := h a (by simp)
    intro c hc
    simp only [b64EncodeBytes, List.mem_cons, List.not_mem_nil, or_false] at hc
    rcases hc with rfl | rfl | rfl | rfl
    · exact Or.inr ⟨_, by omega, rfl⟩
    · exact Or.inr ⟨_, by omega, rfl⟩
    · exact Or.inl rfl
    · exact Or.inl rfl
  | case3 a b =>
    have ha : a < 256 := h a (by simp)
    have hb : b < 256 := h b (by simp)
    intro c hc
    simp only [b64EncodeBytes, List.mem_cons, List.not_mem_nil, or_false] at hc
    rcases hc with rfl | rfl | rfl | rfl
    · exact Or.inr ⟨_, by omega, rfl⟩
    · exact Or.inr ⟨_, by omega, rfl⟩
    · exact Or.inr ⟨_, by omega, rfl⟩
    · exact Or.inl rfl
  | case4 a b c rest ih =>
    have ha : a < 256 := h a (by simp)
    have hb : b < 256 := h b (by simp)
    have hc256 : c < 256 := h c (by simp)
    have hrest : ∀ x ∈ rest, x < 256 := fun x hx => h x (by simp [hx])
    intro d hd
    simp only [b64EncodeBytes, List.mem_cons] at hd
    rcases hd with rfl | rfl | rfl | rfl | hd
    · exact Or.inr ⟨_, by omega, rfl⟩
    · exact Or.inr ⟨_, by omega, rfl⟩
    · exact Or.inr ⟨_, by omega, rfl⟩
    · exact Or.inr ⟨_, by omega, rfl⟩
    · exact ih hrest d hd

theorem b64Char_ascii : ∀ n < 64, (sixToChar n).toNat < 128 := by decide

theorem b64Char_not_pct : ∀ n < 64, sixToChar n ≠ '%' := by decide

/-- Characterization of an encoded token's characters. -/
theorem encodePayload_chars (p : LinkPayload) (h : payloadLatin1 p = true) :
    ∀ c ∈ (encodePayload p).data, c = '=' ∨ ∃ n, n < 64 ∧ c = sixToChar n := by
  have hb := btoa_stringify p h
  unfold btoaStr at hb
  rw [if_pos (stringify_payload_latin1 p h), Option.some_inj] at hb
  rw [← hb]
  rw [show (String.mk (b64EncodeBytes
    ((jsonStringify (payloadToJson p)).data.map Char.toNat))).data
    = b64EncodeBytes ((jsonStringify (payloadToJson p)).data.map Char.toNat)
    from rfl]
  apply b64Encode_chars
  intro b hbm
  rw [List.mem_map] at hbm
  obtain ⟨c, hc, rfl⟩ := hbm
  have hall : ∀ c ∈ (jsonStringify (payloadToJson p)).data, c.toNat < 256 := by
    have := stringify_payload_latin1 p h
    rw [List.all_eq_true] at this
    intro c hcm
    simpa using this c hcm
  exact hall c hc

theorem utf8Bytes_cons (c : Char) : ∃ b bs, utf8Bytes c = b :: bs := by
  unfold utf8Bytes
  dsimp only
  split_ifs <;> exact ⟨_, _, rfl⟩

theorem encodeURIChars_all_unreserved (cs : List Char)
    (h : ∀ c ∈ cs, isUriUnreserved c = true) : encodeURIChars cs = cs := by
  induction cs with
  | nil => rfl
  | cons c rest ih =>
    rw [show encodeURIChars (c :: rest) =
      (if isUriUnreserved c then [c] else (utf8Bytes c).flatMap pctByte) ++
        encodeURIChars rest from rfl]
    rw [if_pos (h c (by simp)), ih (fun x hx => h x (by simp [hx]))]
    rfl

theorem encodeURIChars_pct_of_not (cs : List Char) (c : Char) (hmem : c ∈ cs)
    (hnr : isUriUnreserved c = false) : '%' ∈ encodeURIChars cs := by
  induction cs with
  | nil => simp at hmem
  | cons d rest ih =>
    rw [show encodeURIChars (d :: rest) =
      (if isUriUnreserved d then [d] else (utf8Bytes d).flatMap pctByte) ++
        encodeURIChars rest from rfl]
    rw [List.mem_append]
    rcases List.mem_cons.mp hmem with rfl | hmem2
    · left
      rw [if_neg (by simp [hnr])]
      obtain ⟨b, bs, hb⟩ := utf8Bytes_cons c
      rw [hb]
      rw [show (b :: bs).flatMap pctByte = pctByte b ++ bs.flatMap pctByte from rfl]
      rw [show pctByte b = ['%', hexDigitUpper (b / 16), hexDigitUpper (b % 16)] from rfl]
      simp
    · exact Or.inr (ih hmem2)

theorem encodeURIChars_dichotomy (cs : List Char) :
    encodeURIChars cs = cs ∨ '%' ∈ encodeURIChars cs := by
  by_cases h : ∀ c ∈ cs, isUriUnreserved c = true
  · exact Or.inl (encodeURIChars_all_unreserved cs h)
  · push_neg at h
    obtain ⟨c, hmem, hnr⟩ := h
    exact Or.inr (encodeURIChars_pct_of_not cs c hmem (by
      cases hu : isUriUnreserved c
      · rfl
      · exact absurd hu hnr))

theorem encodeURIChars_ascii (cs : List Char) :
    (∀ c ∈ cs, c.toNat < 128) → ∀ d ∈ encodeURIChars cs, d.toNat < 128 := by
  induction cs with
  | nil => intro _ d hd; simp [encodeURIChars] at hd
  | cons c rest ih =>
    intro h d hd
    rw [show encodeURIChars (c :: rest) =
      (if isUriUnreserved c then [c] else (utf8Bytes c).flatMap pctByte) ++
        encodeURIChars rest from rfl] at hd
    rw [List.mem_append] at hd
    rcases hd with hd | hd
    · by_cases hu : isUriUnreserved c
      · rw [if_pos hu] at hd
        simp at hd
        subst hd
        exact h d (by simp)
      · rw [if_neg hu] at hd
        have hc : c.toNat < 128 := h c (by simp)
        rw [show utf8Bytes c = [c.toNat] from by unfold utf8Bytes; rw [if_pos (by omega)]] at hd
        rw [show ([c.toNat] : List Nat).flatMap pctByte = pctByte c.toNat ++ [] from rfl] at hd
        rw [show pctByte c.toNat =
          ['%', hexDigitUpper (c.toNat / 16), hexDigitUpper (c.toNat % 16)] from rfl] at hd
        have hup : ∀ n < 16, (hexDigitUpper n).toNat < 128 := by decide
        simp at hd
        rcases hd with rfl | rfl | rfl
        · decide
        · exact hup _ (by omega)
        · exact hup _ (by omega)
    · exact ih (fun x hx => h x (by simp [hx])) d hd

theorem hexVal_hexDigitUpper : ∀ n < 16, hexVal (hexDigitUpper n) = some n := by decide

def encUnits (cs : List Char) : List (Char ⊕ Nat) :=
  cs.flatMap (fun c => if isUriUnreserved c then [Sum.inl c] else [Sum.inr c.toNat])

set_option maxHeartbeats 2000000 in
theorem pctUnits_cons_ne (c : Char) (l : List Char) (h : ¬ c = '%') :
    pctUnits (c :: l) = (pctUnits l).map (fun us => Sum.inl c :: us) := by
  rw [pctUnits.eq_def]
  dsimp only
  rw [if_neg h]

set_option maxHeartbeats 2000000 in
theorem pctUnits_pct (h1 h2 : Char) (l : List Char) (a b : Nat)
    (ha : hexVal h1 = some a) (hb : hexVal h2 = some b) :
    pctUnits ('%' :: h1 :: h2 :: l)
      = (pctUnits l).map (fun us => Sum.inr (a * 16 + b) :: us) := by
  rw [pctUnits.eq_def]
  dsimp only
  rw [if_pos rfl, ha, hb]

theorem isUriUnreserved_ne_pct (c : Char) (h : isUriUnreserved c = true) : ¬ c = '%' := by
  intro hc
  subst hc
  exact absurd h (by decide)

theorem pctUnits_encodeURIChars (cs : List Char) :
    (∀ c ∈ cs, c.toNat < 128) → pctUnits (encodeURIChars cs) = some (encUnits cs) := by
  induction cs with
  | nil => intro _; rfl
  | cons c rest ih =>
    intro h
    have hrest := ih (fun x hx => h x (by simp [hx]))
    have hc : c.toNat < 128 := h c (by simp)
    rw [show encodeURIChars (c :: rest) =
      (if isUriUnreserved c then [c] else (utf8Bytes c).flatMap pctByte) ++
        encodeURIChars rest from rfl]
    by_cases hu : isUriUnreserved c
    · rw [if_pos hu]
      rw [show ([c] ++ encodeURIChars rest) = c :: encodeURIChars rest from rfl]
      rw [pctUnits_cons_ne c _ (isUriUnreserved_ne_pct c hu), hrest]
      rw [show encUnits (c :: rest)
        = (if isUriUnreserved c then [Sum.inl c] else [Sum.inr c.toNat]) ++ encUnits rest
        from rfl]
      rw [if_pos hu]
      rfl
    · rw [if_neg hu]
      rw [show utf8Bytes c = [c.toNat] from by unfold utf8Bytes; rw [if_pos (by omega)]]
      rw [show ([c.toNat] : List Nat).flatMap pctByte = pctByte c.toNat ++ [] from rfl,
        List.append_nil]
      rw [show pctByte c.toNat =
        ['%', hexDigitUpper (c.toNat / 16), hexDigitUpper (c.toNat % 16)] from rfl]
      rw [show (['%', hexDigitUpper (c.toNat / 16), hexDigitUpper (c.toNat % 16)] ++
        encodeURIChars rest)
        = '%' :: hexDigitUpper (c.toNat / 16) :: hexDigitUpper (c.toNat % 16) ::
          encodeURIChars rest from rfl]
      rw [pctUnits_pct _ _ _ (c.toNat / 16) (c.toNat % 16)
        (hexVal_hexDigitUpper _ (by omega)) (hexVal_hexDigitUpper _ (by omega))]
      rw [hrest]
      rw [show encUnits (c :: rest)
        = (if isUriUnreserved c then [Sum.inl c] else [Sum.inr c.toNat]) ++ encUnits rest
        from rfl]
      rw [if_neg hu]
      have hb : c.toNat / 16 * 16 + c.toNat % 16 = c.toNat := by omega
      rw [show Option.map (fun us => Sum.inr (c.toNat / 16 * 16 + c.toNat % 16) :: us)
          (some (encUnits rest))
        = some (Sum.inr (c.toNat / 16 * 16 + c.toNat % 16) :: encUnits rest) from rfl]
      rw [hb]
      rfl

theorem decodeUnits_inr_small (fuel b : Nat) (l : List (Char ⊕ Nat)) (h : b < 0x80) :
    decodeUnits (fuel + 1) (Sum.inr b :: l)
      = (decodeUnits fuel l).map (fun cs => Char.ofNat b :: cs) := by
  simp only [decodeUnits]
  rw [if_pos h]

theorem encUnits_length (cs : List Char) : (encUnits cs).length = cs.length := by
  induction cs with
  | nil => rfl
  | cons c rest ih =>
    rw [show encUnits (c :: rest)
      = (if isUriUnreserved c then [Sum.inl c] else [Sum.inr c.toNat]) ++ encUnits rest
      from rfl]
    by_cases hu : isUriUnreserved c
    · rw [if_pos hu]; simp [ih]
    · rw [if_neg hu]; simp [ih]

theorem decodeUnits_encUnits (cs : List Char) :
    (∀ c ∈ cs, c.toNat < 128) →
      ∀ fuel, cs.length < fuel → decodeUnits fuel (encUnits cs) = some cs := by
  induction cs with
  | nil =>
    intro _ fuel hf
    cases fuel with
    | zero => omega
    | succ f => rfl
  | cons c rest ih =>
    intro h fuel hf
    have hrest := ih (fun x hx => h x (by simp [hx]))
    have hc : c.toNat < 128 := h c (by simp)
    cases fuel with
    | zero => omega
    | succ f =>
    rw [show encUnits (c :: rest)
      = (if isUriUnreserved c then [Sum.inl c] else [Sum.inr c.toNat]) ++ encUnits rest
      from rfl]
    by_cases hu : isUriUnreserved c
    · rw [if_pos hu]
      rw [show (([Sum.inl c] : List (Char ⊕ Nat)) ++ encUnits rest)
        = Sum.inl c :: encUnits rest from rfl]
      rw [decodeUnits_inl_cons, hrest f (by simpa using hf)]
      rfl
    · rw [if_neg hu]
      rw [show (([Sum.inr c.toNat] : List (Char ⊕ Nat)) ++ encUnits rest)
        = Sum.inr c.toNat :: encUnits rest from rfl]
      rw [decodeUnits_inr_small f c.toNat (encUnits rest) hc,
        hrest f (by simpa using hf)]
      simp [Char.ofNat_toNat]

theorem decodeURI_encodeURI_ascii (s : String) (h : ∀ c ∈ s.data, c.toNat < 128) :
    decodeURIComponentStr (encodeURIComponentStr s) = some s := by
  unfold decodeURIComponentStr encodeURIComponentStr
  rw [show (String.mk (encodeURIChars s.data)).data = encodeURIChars s.data from rfl]
  rw [pctUnits_encodeURIChars s.data h]
  rw [Option.some_bind]
  rw [decodeUnits_encUnits s.data h ((encUnits s.data).length + 1)
    (by rw [encUnits_length]; omega)]
  rfl

theorem encodePayload_ascii (p : LinkPayload) (h : payloadLatin1 p = true) :
    ∀ c ∈ (encodePayload p).data, c.toNat < 128 := by
  intro c hc
  rcases encodePayload_chars p h c hc with rfl | ⟨n, hn, rfl⟩
  · decide
  · exact b64Char_ascii n hn

theorem decodePayload_enc_once (p : LinkPayload) (h : payloadLatin1 p = true) :
    decodePayload (encodeURIComponentStr (encodePayload p)) = payloadToJson p := by
  rcases encodeURIChars_dichotomy (encodePayload p).data with heq | hpct
  · have hs : encodeURIComponentStr (encodePayload p) = encodePayload p := by
      unfold encodeURIComponentStr
      rw [heq]
    rw [hs]
    exact decodePayload_encodePayload p h
  · have hpct2 : '%' ∈ (encodeURIComponentStr (encodePayload p)).data := hpct
    have hne : encodeURIComponentStr (encodePayload p) ≠ "" := by
      intro he
      rw [he] at hpct2
      simp at hpct2
    have hd := decodeURI_encodeURI_ascii (encodePayload p) (encodePayload_ascii p h)
    have hb := btoa_stringify p h
    have ha := atobStr_btoaStr _ _ hb
    have hp := jsonParse_stringify (payloadToJson p) (payloadTextual p)
    unfold decodePayload
    rw [if_neg hne]
    rw [atobStr_none_of_pct _ hpct2, Option.none_bind]
    rw [hd, Option.some_bind, ha, Option.some_bind, hp]

theorem decodePayload_enc_twice_pct (p : LinkPayload) (h : payloadLatin1 p = true)
    (hpct : '%' ∈ (encodeURIComponentStr (encodePayload p)).data) :
    decodePayload (encodeURIComponentStr (encodeURIComponentStr (encodePayload p)))
      = Json.null := by
  have hs1ascii : ∀ c ∈ (encodeURIComponentStr (encodePayload p)).data, c.toNat < 128 :=
    encodeURIChars_ascii (encodePayload p).data (encodePayload_ascii p h)
  have hpct2 :
      '%' ∈ (encodeURIComponentStr (encodeURIComponentStr (encodePayload p))).data :=
    encodeURIChars_pct_of_not (encodeURIComponentStr (encodePayload p)).data '%' hpct
      (by decide)
  have hne : encodeURIComponentStr (encodeURIComponentStr (encodePayload p)) ≠ "" := by
    intro he
    rw [he] at hpct2
    simp at hpct2
  have hd := decodeURI_encodeURI_ascii (encodeURIComponentStr (encodePayload p)) hs1ascii
  unfold decodePayload
  rw [if_neg hne]
  rw [atobStr_none_of_pct _ hpct2, Option.none_bind]
  rw [hd, Option.some_bind, atobStr_none_of_pct _ hpct, Option.none_bind]

def c4Payload : LinkPayload :=
  { mode := .direct, url := some "https://example.com", title := some "Hi" }

/-- C4, counterexample: for the direct descriptor `c4Payload` the Base64
token ends in padding `==`, so `encodeURIComponent` rewrites it (`%3D%3D`);
the once-encoded form still decodes to the descriptor's JSON, but the
twice-encoded form decodes to the failure value `null`, refuting the claim
that both always succeed. -/
theorem C4_counterexample :
    decodePayload (encodeURIComponentStr (encodePayload c4Payload))
        = payloadToJson c4Payload ∧
      decodePayload (encodeURIComponentStr (encodeURIComponentStr (encodePayload c4Payload)))
        = Json.null ∧
      payloadToJson c4Payload ≠ Json.null := by
  refine ⟨?_, ?_, ?_⟩ <;> decide

/-- C4 (amended): for every Latin-1 descriptor the once-percent-encoded
token decodes to the descriptor's JSON; the encoded token either is
unchanged or contains a percent sign; in the first case the twice-encoded
token still decodes, and in the second it yields the failure value `null`. -/
theorem C4_amended_single_encoding_tolerance (p : LinkPayload)
    (h : payloadLatin1 p = true) :
    decodePayload (encodeURIComponentStr (encodePayload p)) = payloadToJson p ∧
    (encodeURIComponentStr (encodePayload p) = encodePayload p ∨
      '%' ∈ (encodeURIComponentStr (encodePayload p)).data) ∧
    (encodeURIComponentStr (encodePayload p) = encodePayload p →
      decodePayload (encodeURIComponentStr (encodeURIComponentStr (encodePayload p)))
        = payloadToJson p) ∧
    ('%' ∈ (encodeURIComponentStr (encodePayload p)).data →
      decodePayload (encodeURIComponentStr (encodeURIComponentStr (encodePayload p)))
        = Json.null) := by
  refine ⟨decodePayload_enc_once p h, ?_, ?_,
    fun hp => decodePayload_enc_twice_pct p h hp⟩
  · rcases encodeURIChars_dichotomy (encodePayload p).data with heq | hpct
    · left
      unfold encodeURIComponentStr
      rw [heq]
    · right
      exact hpct
  · intro he
    rw [he]
    exact decodePayload_enc_once p h

/-- C4 witness: the amended theorem applied at `c4Payload`, whose encoded
token does contain a percent sign. -/
theorem C4_amended_single_encoding_tolerance_witness :
    payloadLatin1 c4Payload = true ∧
      '%' ∈ (encodeURIComponentStr (encodePayload c4Payload)).data ∧
      decodePayload (encodeURIComponentStr (encodeURIComponentStr (encodePayload c4Payload)))
        = Json.null :=
  ⟨by decide, by decide,
    (C4_amended_single_encoding_tolerance c4Payload (by decide)).2.2.2 (by decide)⟩
